import Mathlib

/-!
Verification of the mdast-playground Markdown parser (Go sources `ast.go`,
`inline.go`, renderer).

The Go sources are shallowly embedded: bytes are `Nat` (0..255), a Go slice of
bytes is `List Nat`, pure functions become Lean functions, the mutable parser
state becomes an explicit record threaded through the line-incorporation
functions, and operations that can hit a Go runtime panic (out-of-range slice
indexing, `nil`-pointer use) return `Option`, with `none` standing for the
panic.  Loops whose termination is not structural use an explicit fuel
parameter that is provably sufficient; running out of fuel also yields `none`.

Naming follows the Go sources where Lean permits (`open` is a Lean keyword, so
the Go field `Node.open` is called `openFlag` here).
-/

/-- Go byte values used throughout (ASCII codes). -/
def byteNL : Nat := 10
def byteCR : Nat := 13
def byteSpace : Nat := 32
def byteTab : Nat := 9
def byteHash : Nat := 35
def byteStar : Nat := 42
def byteUnderscore : Nat := 95
def byteDash : Nat := 45
def byteGt : Nat := 62

/-- Encode an ASCII Lean string as the byte list the Go program would read.
Inputs in this development are ASCII, where UTF-8 bytes coincide with code
points. -/
def bytesOfString (s : String) : List Nat :=
  s.data.map Char.toNat

/-- `bytes.Trim(s, cutset)`: drop leading and trailing bytes that belong to
`cut`. -/
def bytesTrim (cut : List Nat) (s : List Nat) : List Nat :=
  ((s.dropWhile (fun b => cut.contains b)).reverse.dropWhile
    (fun b => cut.contains b)).reverse

/-- `bytes.Split(input, "\n")`: split on newline bytes; `n` separators yield
`n+1` pieces (an empty input yields one empty piece, as in Go). -/
def splitNL (l : List Nat) : List (List Nat) :=
  l.foldr
    (fun b acc =>
      if b = byteNL then [] :: acc
      else
        match acc with
        | [] => [[b]]
        | h :: t => (b :: h) :: t)
    [[]]

/-- Node kinds, from the `NodeType` constants in `ast.go`. -/
inductive NodeType where
  | Document
  | BlockQuote
  | List
  | Item
  | Paragraph
  | Header
  | HorizontalRule
  | Emph
  | Strong
  | Link
  | Image
  | Text
deriving DecidableEq, Repr

/-- The scalar fields of a Go `Node` (`ast.go`): everything except the child
pointers.  `content`/`literal` are byte buffers (Go `nil` and empty slices are
both the empty list).  `openFlag` is the Go field `open`. -/
structure NodeInfo where
  typ : NodeType
  content : List Nat
  literal : List Nat
  level : Nat
  openFlag : Bool
  lastLineBlank : Bool
  srcLine : Nat
  srcChar : Nat
  endLine : Nat
  endChar : Nat
deriving DecidableEq, Repr

/-- A finished node together with its (ordered, owned) children: the tree
view of the `Node` pointer structure of `ast.go`. -/
inductive BNode where
  | mk (info : NodeInfo) (children : List BNode)
deriving Repr

def BNode.info : BNode → NodeInfo
  | .mk i _ => i

def BNode.children : BNode → List BNode
  | .mk _ c => c

def BNode.typ (n : BNode) : NodeType := n.info.typ

/-- `NewNode(typ, src)` with `NewSourceRange()` defaults, as built by
`text()` in `inline.go` (literal payload, no children). -/
def textNode (s : List Nat) : BNode :=
  .mk { typ := .Text, content := [], literal := s, level := 0,
        openFlag := true, lastLineBlank := false,
        srcLine := 1, srcChar := 1, endLine := 0, endChar := 0 } []

/-! ## Inline parser (`inline.go`)

The `InlineParser` state is the pair `(subject, pos)`; the Text nodes it
appends to the block are accumulated in a list.  `processEmphasis` in the
source is an empty stub (`// TODO`), and `scanDelims` always reports
`canOpen = canClose = false`, so the tokenize pass below is the whole inline
phase. -/

/-- `InlineParser.peek`: byte at `pos`, or the sentinel `255` past the end
(`// XXX: figure out invalid values` in the source).  Note that an actual
`0xFF` byte in the subject is indistinguishable from the sentinel. -/
def ipPeek (subject : List Nat) (pos : Nat) : Nat :=
  match subject[pos]? with
  | some b => b
  | none => 255

/-- `InlineParser.scanDelims`, restricted to its effective result: the length
of the delimiter run at `pos` (quotes always count 1); `canOpen`/`canClose`
are hard-coded `false` in the source and are not modelled separately. -/
def scanDelims (subject : List Nat) (pos : Nat) (ch : Nat) : Nat :=
  if ch = 39 ∨ ch = 34 then 1
  else ((subject.drop pos).takeWhile (fun b => b = ch)).length

/-- `InlineParser.handleDelim`: measure the run, append a Text node holding
the literal run, advance past it.  Returns `none` for the Go `return false`
path (`numDelims < 1`). -/
def handleDelim (subject : List Nat) (pos : Nat) (ch : Nat) :
    Option (Nat × BNode) :=
  let numDelims := scanDelims subject pos ch
  if numDelims < 1 then none
  else
    let contents :=
      if ch = 39 ∨ ch = 34 then [ch]
      else (subject.drop pos).take numDelims
    some (pos + numDelims, textNode contents)

/-- The byte class of the regexp `reMain` in `inline.go`: everything except
newline, backquote (96), brackets, bang, less-than, ampersand, star,
underscore and the two quote characters. -/
def isMainByte (b : Nat) : Bool :=
  ¬ (b = 10 ∨ b = 96 ∨ b = 91 ∨ b = 93 ∨ b = 33 ∨ b = 60 ∨ b = 38 ∨
     b = 42 ∨ b = 95 ∨ b = 39 ∨ b = 34)

/-- `InlineParser.parseString`: the maximal `reMain` match at `pos`, as a Text
node; `none` models the Go `return false` when the match is empty. -/
def parseString (subject : List Nat) (pos : Nat) : Option (Nat × BNode) :=
  let m := (subject.drop pos).takeWhile isMainByte
  if m = [] then none
  else some (pos + m.length, textNode m)

/-- `InlineParser.parseInline` for one step: `none` models the Go
`return false` (peek saw the 255 sentinel), `some (pos', node)` a step that
consumed input and appended `node`. -/
def parseInline (subject : List Nat) (pos : Nat) : Option (Nat × BNode) :=
  let ch := ipPeek subject pos
  if ch = 255 then none
  else
    let res :=
      if ch = byteStar ∨ ch = byteUnderscore then handleDelim subject pos ch
      else parseString subject pos
    match res with
    | some r => some r
    | none => some (pos + 1, textNode [ch])

/-- The `for p.parseInline(block) {}` loop of `InlineParser.parse`, with fuel;
`none` is fuel exhaustion (never reached, see `ipLoop_total`). -/
def ipLoop (subject : List Nat) : Nat → Nat → List BNode → Option (List BNode)
  | 0, _, _ => none
  | fuel + 1, pos, acc =>
    match parseInline subject pos with
    | none => some acc
    | some (pos', node) => ipLoop subject fuel pos' (acc ++ [node])

/-- Run the tokenize loop on a subject with always-sufficient fuel. -/
def inlineRun (subject : List Nat) : Option (List BNode) :=
  ipLoop subject (subject.length + 1) 0 []

/-- `InlineParser.parse` applied to a block: the children appended to the
block from its trimmed raw content (`bytes.Trim(block.content, " \n\r")`).
The dead `[]` branch models the unreachable fuel exhaustion. -/
def inlineChildren (content : List Nat) : List BNode :=
  match inlineRun (bytesTrim [byteSpace, byteNL, byteCR] content) with
  | some cs => cs
  | none => []

/-- Concatenated literal text of a list of inline nodes. -/
def concatLiterals (cs : List BNode) : List Nat :=
  cs.flatMap (fun c => c.info.literal)

/-! ## Block parser (`ast.go`)

The open blocks of the Go parser always form a single chain from the
`Document` root down to `p.tip`: `addChild` appends a fresh open node at the
tip and makes it the tip, and `finalize` closes the tip and moves to its
parent, so every node off that chain is closed and every node on it is open
(this is proved below as `parserInv`).  The state is therefore embedded as a
zipper: `tipInfo`/`tipKids` are the tip node and its (closed) children,
`ancs` the ancestor chain (innermost first), each ancestor paired with its
closed children.  Pointer comparisons of the Go code translate to depth
comparisons on that chain: `p.oldTip`/`p.lastMatchedContainer` are chain
positions, recorded as `lastMatchedDepth` and via `allClosed`.

For instrumentation, every `addLine` and `finalize` call records the `open`
flag of the node it touches in an event log; the log is inspected only by
theorems and never read back by the parser. -/

/-- The parser events recorded for the invariant claims: each carries the
`open` flag of the node the operation was applied to, at call time. -/
inductive PEvent where
  | addLineEv (tipOpen : Bool)
  | finalizeEv (blockOpen : Bool)
deriving DecidableEq, Repr

/-- `ContinueStatus` from `ast.go`. -/
inductive ContinueStatus where
  | Matched
  | NotMatched
  | Completed
deriving DecidableEq, Repr

/-- `BlockStatus` from `ast.go`. -/
inductive BlockStatus where
  | NoMatch
  | ContainerMatch
  | LeafMatch
deriving DecidableEq, Repr

/-- The mutable `Parser` state of `ast.go` (minus the redundant `doc`,
`oldTip` and `lines` fields, recoverable from the zipper: the document root
is the outermost chain entry, `oldTip` is the tip itself whenever it is
consulted — see `closeUnmatchedBlocks` — and the line list is iterated
directly by `parse`). -/
structure PState where
  tipInfo : NodeInfo
  tipKids : List BNode
  ancs : List (NodeInfo × List BNode)
  lineNumber : Nat
  lastLineLength : Nat
  offset : Nat
  column : Nat
  nextNonspace : Nat
  nextNonspaceColumn : Nat
  indent : Nat
  indented : Bool
  blank : Bool
  allClosed : Bool
  lastMatchedDepth : Nat
  currentLine : List Nat
  log : List PEvent
deriving Repr

/-- `peek` from `ast.go`: byte at `pos` or `0` past the end. -/
def peekLine (ln : List Nat) (pos : Nat) : Nat :=
  match ln[pos]? with
  | some b => b
  | none => 0

/-- The scan loop of `Parser.findNextNonspace`; returns
`(i, cols, c)` where `c` is the last byte examined (Go `var c byte`,
zero-initialised).  Fuel `line.length + 1` is always sufficient since `i`
grows by 1 per iteration and the loop stops once `i` reaches the end. -/
def fnnsLoop (ln : List Nat) : Nat → Nat → Nat → Nat → (Nat × Nat × Nat)
  | 0, i, cols, c => (i, cols, c)
  | fuel + 1, i, cols, c =>
    match ln[i]? with
    | none => (i, cols, c)
    | some b =>
      if b = byteSpace then fnnsLoop ln fuel (i + 1) (cols + 1) b
      else if b = byteTab then
        fnnsLoop ln fuel (i + 1) (cols + (4 - cols % 4)) b
      else (i, cols, b)

/-- `Parser.findNextNonspace`: locate the next non-space/tab byte, expanding
tabs to the next multiple-of-4 column, and derive `blank`, `indent` and
`indented` (the `indent ≥ 4` test). -/
def findNextNonspace (s : PState) : PState :=
  let r := fnnsLoop s.currentLine (s.currentLine.length + 1) s.offset s.column 0
  { s with
    blank := decide (r.2.2 = byteNL ∨ r.2.2 = byteCR ∨ r.1 = s.currentLine.length),
    nextNonspace := r.1,
    nextNonspaceColumn := r.2.1,
    indent := r.2.1 - s.column,
    indented := decide (r.2.1 - s.column ≥ 4) }

/-- The loop of `Parser.advanceOffset`: `i` counts consumed bytes, `cols`
consumed columns (a tab advances to the next multiple of 4 from
`colBase + cols`).  `none` models the Go out-of-range panic on
`p.currentLine[p.offset+i]`; fuel `count` is always sufficient because each
iteration grows both counters by at least one. -/
def aoLoop (ln : List Nat) (colBase : Nat) (columns : Bool) (count : Nat)
    (offBase : Nat) : Nat → Nat → Nat → Option (Nat × Nat)
  | fuel, i, cols =>
    if (if columns then count ≤ cols else count ≤ i) then some (i, cols)
    else
      match fuel with
      | 0 => none
      | fuel + 1 =>
        match ln[offBase + i]? with
        | none => none
        | some b =>
          aoLoop ln colBase columns count offBase fuel (i + 1)
            (cols + (if b = byteTab then 4 - ((colBase + cols) % 4) else 1))

/-- `Parser.advanceOffset`. -/
def advanceOffset (s : PState) (count : Nat) (columns : Bool) :
    Option PState :=
  match aoLoop s.currentLine s.column columns count s.offset count 0 0 with
  | none => none
  | some (i, cols) =>
    some { s with offset := s.offset + i, column := s.column + cols }

/-- `Parser.advanceNextNonspace`. -/
def advanceNextNonspace (s : PState) : PState :=
  { s with offset := s.nextNonspace, column := s.nextNonspaceColumn }

/-- The per-kind `Continue` methods (`blockHandlers[...].Continue`).  Kinds
outside the five with handlers never sit on the open chain (the block phase
only creates those five); the Go map lookup would yield a nil interface for
them, so the catch-all arm is unreachable. -/
def blockContinue (t : NodeType) (s : PState) :
    Option (ContinueStatus × PState) :=
  match t with
  | .Document => some (.Matched, s)
  | .Header => some (.NotMatched, s)
  | .HorizontalRule => some (.NotMatched, s)
  | .Paragraph =>
    if s.blank then some (.NotMatched, s) else some (.Matched, s)
  | .BlockQuote =>
    if ¬ s.indented ∧ peekLine s.currentLine s.nextNonspace = byteGt then
      let s := advanceNextNonspace s
      match advanceOffset s 1 false with
      | none => none
      | some s =>
        if peekLine s.currentLine s.offset = byteSpace then
          some (.Matched, { s with offset := s.offset + 1 })
        else some (.Matched, s)
    else some (.NotMatched, s)
  | _ => some (.NotMatched, s)

/-- The per-kind `CanContain` methods. -/
def blockCanContain (t : NodeType) (child : NodeType) : Bool :=
  match t with
  | .Document => decide (child ≠ .Item)
  | .BlockQuote => decide (child ≠ .Item)
  | _ => false

/-- The per-kind `AcceptsLines` methods: only `Paragraph` accepts raw
lines. -/
def blockAcceptsLines (t : NodeType) : Bool :=
  match t with
  | .Paragraph => true
  | _ => false

/-- `Parser.finalize` on a node's scalar fields: clear `open`, stamp the end
position (`endChar` is the length of the previous fully processed line). -/
def closeNodeInfo (i : NodeInfo) (ln : Nat) (lll : Nat) : NodeInfo :=
  { i with openFlag := false, endLine := ln, endChar := lll }

/-- `Parser.finalize(p.tip, ln)`: close the tip, attach it as the last child
of its parent, move the tip to the parent.  All per-kind `Finalize` hooks in
the source are empty.  `none` models closing the root mid-parse (Go would
set `p.tip = nil`; unreachable before the end-of-input loop). -/
def finalizeTip (s : PState) (ln : Nat) : Option PState :=
  match s.ancs with
  | [] => none
  | (pInfo, pKids) :: rest =>
    some { s with
      tipInfo := pInfo,
      tipKids :=
        pKids ++ [BNode.mk (closeNodeInfo s.tipInfo ln s.lastLineLength) s.tipKids],
      ancs := rest,
      log := s.log ++ [.finalizeEv s.tipInfo.openFlag] }

/-- `Parser.addLine`: append the rest of the current line plus a newline to
the tip's raw content. -/
def addLine (s : PState) : PState :=
  { s with
    tipInfo := { s.tipInfo with
      content := s.tipInfo.content ++ s.currentLine.drop s.offset ++ [byteNL] },
    log := s.log ++ [.addLineEv s.tipInfo.openFlag] }

/-- The `for !CanContain` loop of `Parser.addChild`: finalize tips until one
can contain `t`.  Fuel `ancs.length + 1` suffices (each `finalize` shortens
the chain; at the root either the root accepts or `finalizeTip` yields
`none`, the Go nil-tip panic). -/
def addChildLoop (t : NodeType) : Nat → PState → Option PState
  | fuel, s =>
    if blockCanContain s.tipInfo.typ t then some s
    else
      match fuel with
      | 0 => none
      | fuel + 1 =>
        match finalizeTip s (s.lineNumber - 1) with
        | none => none
        | some s' => addChildLoop t fuel s'

/-- `Parser.addChild`: close refusing tips, then open one new child of kind
`t` under the tip and make it the new tip. -/
def addChild (s : PState) (t : NodeType) (off : Nat) : Option PState :=
  match addChildLoop t (s.ancs.length + 1) s with
  | none => none
  | some s =>
    some { s with
      ancs := (s.tipInfo, s.tipKids) :: s.ancs,
      tipInfo := { typ := t, content := [], literal := [], level := 0,
                   openFlag := true, lastLineBlank := false,
                   srcLine := s.lineNumber, srcChar := off + 1,
                   endLine := 0, endChar := 0 },
      tipKids := [] }

/-- The loop of `Parser.closeUnmatchedBlocks`.  Whenever the Go loop body
runs, `p.oldTip` equals `p.tip` (both were the tip at the start of the line,
and no trigger fires before its own `closeUnmatchedBlocks` call sets
`allClosed`), and each `finalize` moves both one level up, so the loop is
equivalently driven on the tip until its depth reaches
`lastMatchedDepth`. -/
def cubLoop : Nat → PState → Option PState
  | fuel, s =>
    if s.ancs.length = s.lastMatchedDepth then some s
    else
      match fuel with
      | 0 => none
      | fuel + 1 =>
        match finalizeTip s (s.lineNumber - 1) with
        | none => none
        | some s' => cubLoop fuel s'

/-- `Parser.closeUnmatchedBlocks`. -/
def closeUnmatchedBlocks (s : PState) : Option PState :=
  if s.allClosed then some s
  else
    match cubLoop (s.ancs.length + 1) s with
    | none => none
    | some s' => some { s' with allClosed := true }

/-! ### The block-start trigger regexps

Go's `regexp` on the three anchored patterns of `ast.go` is modelled by
direct byte scans; each definition is justified against the pattern it
replaces in a comment. -/

/-- `reATXHeaderMarker.Find(s)` for the anchored pattern
of 1..6 hash marks followed by one-or-more spaces or end of text:
the match (hashes plus the greedy run of following spaces) or `none`.
With more than 6 leading hashes no prefix can match, because every shorter
hash run is followed by another hash, not by a space or the end. -/
def atxMatch (s : List Nat) : Option (List Nat) :=
  let hashes := s.takeWhile (fun b => b = byteHash)
  if 1 ≤ hashes.length ∧ hashes.length ≤ 6 then
    match s.drop hashes.length with
    | [] => some hashes
    | b :: rest =>
      if b = byteSpace then
        some (hashes ++ (b :: rest).takeWhile (fun x => x = byteSpace))
      else none
  else none

/-- Whole-string match of the closing-sequence pattern `reLeft` of
`atxHeaderTrigger` (anchored at both ends: spaces, one-or-more hashes,
spaces). -/
def reLeftAll (s : List Nat) : Bool :=
  let t1 := s.dropWhile (fun b => b = byteSpace)
  let t2 := t1.takeWhile (fun b => b = byteHash)
  decide (1 ≤ t2.length) &&
    (t1.drop t2.length).all (fun b => b = byteSpace)

/-- `reLeft.ReplaceAll(s, "")`: the pattern is anchored at both ends, so the
replacement either erases the whole string or leaves it unchanged. -/
def reLeftStrip (s : List Nat) : List Nat :=
  if reLeftAll s then [] else s

/-- Does `s` itself, in full, match the end-anchored closing-sequence
pattern `reRight` (one-or-more spaces, one-or-more hashes, spaces, end)?
The character classes are disjoint, so this prefix-greedy scan is exact. -/
def reRightSuffix (s : List Nat) : Bool :=
  let sp := s.takeWhile (fun b => b = byteSpace)
  let r1 := s.drop sp.length
  let hs := r1.takeWhile (fun b => b = byteHash)
  decide (1 ≤ sp.length) && decide (1 ≤ hs.length) &&
    (r1.drop hs.length).all (fun b => b = byteSpace)

/-- `reRight.ReplaceAll(s, "")`: the pattern is anchored at the end, so the
(leftmost) match is the earliest suffix matching it, and deleting it keeps
the prefix. -/
def reRightStrip (s : List Nat) : List Nat :=
  match (List.range (s.length + 1)).find? (fun p => reRightSuffix (s.drop p)) with
  | some p => s.take p
  | none => s

/-- `reHrule.Find(s) != nil` for the anchored pattern: the whole string is
three-or-more of one marker character (star, underscore or dash)
interleaved and followed by spaces.  Equivalently: it starts with the
marker, contains only that marker and spaces, and has at least three
markers. -/
def hruleFind (s : List Nat) : Bool :=
  match s with
  | [] => false
  | c :: _ =>
    (decide (c = byteStar) || decide (c = byteUnderscore) ||
       decide (c = byteDash)) &&
    s.all (fun b => decide (b = c) || decide (b = byteSpace)) &&
    decide (3 ≤ s.count c)

/-! ### Block-start triggers (`blockTriggers` in `ast.go`)

Each trigger takes the parser state and returns a `BlockStatus` with the
updated state; the unused `container *Node` parameter of the Go triggers is
omitted (none of the three reads it).  `none` models a Go panic inside the
trigger. -/

/-- `atxHeaderTrigger`. -/
def atxHeaderTrigger (s : PState) : Option (BlockStatus × PState) :=
  match atxMatch (s.currentLine.drop s.nextNonspace) with
  | none => some (.NoMatch, s)
  | some mtch =>
    if ¬ s.indented then
      let s := advanceNextNonspace s
      match advanceOffset s mtch.length false with
      | none => none
      | some s =>
        match closeUnmatchedBlocks s with
        | none => none
        | some s =>
          match addChild s .Header s.nextNonspace with
          | none => none
          | some s =>
            let s := { s with tipInfo := { s.tipInfo with
              level := (bytesTrim [byteSpace, byteTab, byteNL, byteCR] mtch).length,
              content := reRightStrip (reLeftStrip (s.currentLine.drop s.offset)) } }
            match advanceOffset s (s.currentLine.length - s.offset) false with
            | none => none
            | some s => some (.LeafMatch, s)
    else some (.NoMatch, s)

/-- `hruleTrigger`. -/
def hruleTrigger (s : PState) : Option (BlockStatus × PState) :=
  if hruleFind (s.currentLine.drop s.nextNonspace) ∧ ¬ s.indented then
    match closeUnmatchedBlocks s with
    | none => none
    | some s =>
      match addChild s .HorizontalRule s.nextNonspace with
      | none => none
      | some s =>
        match advanceOffset s (s.currentLine.length - s.offset) false with
        | none => none
        | some s => some (.LeafMatch, s)
  else some (.NoMatch, s)

/-- `blockquoteTrigger`. -/
def blockquoteTrigger (s : PState) : Option (BlockStatus × PState) :=
  if ¬ s.indented ∧ peekLine s.currentLine s.nextNonspace = byteGt then
    let s := advanceNextNonspace s
    match advanceOffset s 1 false with
    | none => none
    | some s =>
      match
        (if peekLine s.currentLine s.offset = byteSpace then
           advanceOffset s 1 false
         else some s) with
      | none => none
      | some s =>
        match closeUnmatchedBlocks s with
        | none => none
        | some s =>
          match addChild s .BlockQuote s.nextNonspace with
          | none => none
          | some s => some (.ContainerMatch, s)
  else some (.NoMatch, s)

/-! ### `Parser.incorporateLine` -/

/-- The kind of the chain node at depth `d` (0 = `Document` root).  Only
called with `d ≤ ancs.length`; the fallback arm is unreachable. -/
def typeAtDepth (s : PState) (d : Nat) : NodeType :=
  if d = s.ancs.length then s.tipInfo.typ
  else
    match (s.ancs.reverse.map (fun a => a.1.typ))[d]? with
    | some t => t
    | none => .Document

/-- The scalar fields of the open chain, root first: the root is the
outermost `ancs` entry (or the tip itself when `ancs` is empty), the tip
closes the list. -/
def chainInfos (s : PState) : List NodeInfo :=
  (s.ancs.reverse.map (fun a => a.1)) ++ [s.tipInfo]

/-- `container.lastChild` for `container = p.doc`, as read by
`incorporateLine` once, before its re-descent loop.  Children are only ever
appended at the tip and a finalized node stays in place, so an open child
is always its parent's last child: when the open chain goes below the root,
the root's last child is the chain node at depth 1; when the root is the
whole chain, it is the root's last closed kid, if any. -/
def docLastChild (s : PState) : Option NodeInfo :=
  match (chainInfos s)[1]? with
  | some i => some i
  | none => (s.tipKids.getLast?).map BNode.info

/-- The body of the re-descent loop of `incorporateLine` as the source
wrote it: `lastChild := container.lastChild` is assigned once, before the
loop, and never reassigned, so every iteration runs `Continue` on the same
node — the one the hoisted `lastChild` points at, of kind `ct`.  The loop
leaves only through `NotMatched` (which backs `container` up from that
child to its parent, the root) or `Completed`; its condition
`lastChild != nil && lastChild.open` is stable, because `findNextNonspace`
and the `Continue` handlers never touch the tree.  `none` on exhausted fuel
therefore models real non-termination: when no iteration can change the
answer of `Continue`, the Go loop runs forever. -/
def descendBroken (ct : NodeType) : Nat → PState → Option (PState × Bool)
  | 0, _ => none
  | fuel + 1, s =>
    let s := findNextNonspace s
    match blockContinue ct s with
    | none => none
    | some (.Matched, s') => descendBroken ct fuel s'
    | some (.NotMatched, s') => some (s', false)
    | some (.Completed, s') => some (s', true)

/-- The re-descent loop of `incorporateLine`: zero iterations when the
root's last child is missing or closed, otherwise the fixed-`lastChild`
iteration of `descendBroken`.  In every terminating run the Go `container`
ends at the root — it is only ever assigned the hoisted `lastChild`, and a
`NotMatched` backs it up to that child's parent — so no depth needs to be
returned; the flag records a `Completed` early return. -/
def descendLoop (s : PState) (fuel : Nat) : Option (PState × Bool) :=
  match docLastChild s with
  | some i => if i.openFlag then descendBroken i.typ fuel s else some (s, false)
  | none => some (s, false)

/-- `container.lastChild.lastLineBlank = true` on the tip (the
blank-line marker written onto the last closed child). -/
def setLastKidBlank (s : PState) : PState :=
  { s with tipKids :=
      s.tipKids.dropLast ++
        (match s.tipKids.getLast? with
         | some (.mk i c) => [BNode.mk { i with lastLineBlank := true } c]
         | none => []) }

/-- The `cont := container; for cont != nil` walk: write `lastLineBlank`
onto the container (= the tip here) and every ancestor. -/
def setChainBlank (s : PState) (b : Bool) : PState :=
  { s with
    tipInfo := { s.tipInfo with lastLineBlank := b },
    ancs := s.ancs.map (fun a => ({ a.1 with lastLineBlank := b }, a.2)) }

/-- The block-start loop of `incorporateLine`: try the triggers in their
fixed order (header, thematic break, blockquote); a `ContainerMatch`
restarts the loop at the new position, a `LeafMatch` ends it, no match
advances to the next non-space and breaks.  Fuel is sufficient because each
`ContainerMatch` consumes at least one byte of the line. -/
def triggerLoop : Nat → PState → Bool → Option PState
  | 0, _, _ => none
  | fuel + 1, s, matchedLeaf =>
    if matchedLeaf then some s
    else
      let s := findNextNonspace s
      match atxHeaderTrigger s with
      | none => none
      | some (st, s') =>
        if st ≠ .NoMatch then triggerLoop fuel s' (decide (st = .LeafMatch))
        else
          match hruleTrigger s with
          | none => none
          | some (st, s') =>
            if st ≠ .NoMatch then triggerLoop fuel s' (decide (st = .LeafMatch))
            else
              match blockquoteTrigger s with
              | none => none
              | some (st, s') =>
                if st ≠ .NoMatch then
                  triggerLoop fuel s' (decide (st = .LeafMatch))
                else some (advanceNextNonspace s)

/-- The tail of `incorporateLine` after the trigger loop: lazy paragraph
continuation, or close unmatched blocks and place the line.  After
`closeUnmatchedBlocks` the Go variable `container` equals `p.tip` on every
path (if a trigger fired it was assigned `p.tip`; otherwise it is the last
matched container, which the close loop makes the tip), so the tail reads
the tip where the source reads `container`. -/
def incorporateTail (s : PState) : Option PState :=
  if ¬ s.allClosed ∧ ¬ s.blank ∧ s.tipInfo.typ = .Paragraph then
    some (addLine s)
  else
    match closeUnmatchedBlocks s with
    | none => none
    | some s =>
      let s :=
        if s.blank && !s.tipKids.isEmpty then setLastKidBlank s else s
      let s := setChainBlank s s.blank
      if blockAcceptsLines s.tipInfo.typ then some (addLine s)
      else if s.offset < s.currentLine.length ∧ ¬ s.blank then
        match addChild s .Paragraph s.offset with
        | none => none
        | some s => some (addLine (advanceNextNonspace s))
      else some s

/-- `Parser.incorporateLine`.  After a terminating re-descent the Go
`container` is the root and `p.lastMatchedContainer` sits at depth 0 (see
`descendLoop`), so of `allMatched` only the residue
`p.allClosed = (container == p.oldTip)` remains: true exactly when the root
is the tip.  Descent fuel `line.length + 2` covers every terminating run:
the only handler that answers `Matched` more than once on the same node
without hanging is the blockquote's, and each of its `Matched` answers
consumes at least one byte of the line. -/
def incorporateLine (s : PState) (line : List Nat) : Option PState :=
  let s := { s with offset := 0, lineNumber := s.lineNumber + 1,
                    currentLine := line }
  match descendLoop s (line.length + 2) with
  | none => none
  | some (s, true) => some { s with lastLineLength := line.length }
  | some (s, false) =>
    let s := { s with allClosed := decide (0 = s.ancs.length),
                      lastMatchedDepth := 0 }
    let matchedLeaf :=
      decide (typeAtDepth s 0 ≠ .Paragraph) && blockAcceptsLines (typeAtDepth s 0)
    match triggerLoop (s.currentLine.length + 2) s matchedLeaf with
    | none => none
    | some s =>
      match incorporateTail s with
      | none => none
      | some s => some { s with lastLineLength := line.length }

/-! ### `Parser.parse` -/

/-- The document root node as built by `NewParser` (via `NewNode` with
`NewSourceRange`). -/
def docInfo : NodeInfo :=
  { typ := .Document, content := [], literal := [], level := 0,
    openFlag := true, lastLineBlank := false,
    srcLine := 1, srcChar := 1, endLine := 0, endChar := 0 }

/-- The parser state produced by `NewParser()` (Go zero values for the
cursor fields). -/
def initialParser : PState :=
  { tipInfo := docInfo, tipKids := [], ancs := [],
    lineNumber := 0, lastLineLength := 0, offset := 0, column := 0,
    nextNonspace := 0, nextNonspaceColumn := 0, indent := 0,
    indented := false, blank := false, allClosed := true,
    lastMatchedDepth := 0, currentLine := [], log := [] }

/-- The end-of-input loop `for p.tip != nil { p.finalize(p.tip, numLines) }`:
close every still-open node from the tip up to and including the root and
return the root. -/
def closeAll : NodeInfo → List BNode → List (NodeInfo × List BNode) → Nat →
    Nat → BNode
  | ti, tk, [], ln, lll => BNode.mk (closeNodeInfo ti ln lll) tk
  | ti, tk, (pInfo, pKids) :: rest, ln, lll =>
    closeAll pInfo (pKids ++ [BNode.mk (closeNodeInfo ti ln lll) tk]) rest ln lll

mutual
/-- `Parser.processInlines`: run the inline parser on every `Paragraph` and
`Header` of the finished tree, replacing its raw content with Text children.
The Go code drives this with the walker, which visits a container both
entering and exiting; the second visit re-parses a node whose content was
already cleared and appends nothing, so a single recursive application is
equivalent. -/
def processInlinesTree : BNode → BNode
  | .mk info kids =>
    let kids' := processInlinesKids kids
    if info.typ = .Paragraph ∨ info.typ = .Header then
      BNode.mk { info with content := [] } (kids' ++ inlineChildren info.content)
    else BNode.mk info kids'
def processInlinesKids : List BNode → List BNode
  | [] => []
  | t :: ts => processInlinesTree t :: processInlinesKids ts
end

/-- `Parser.parse`: split into lines, incorporate each, close all open
blocks, run the inline pass.  The Go source indexes `input[len(input)-1]`
before the loop; on empty input that is an out-of-range access (`none`
here). -/
def Parser.parse (input : List Nat) : Option BNode :=
  let lines := splitNL input
  match input[input.length - 1]? with
  | none => none
  | some lastByte =>
    let numLines :=
      if lastByte = byteNL then lines.length - 1 else lines.length
    match (lines.take numLines).foldlM (fun st l => incorporateLine st l)
        initialParser with
    | none => none
    | some s =>
      some (processInlinesTree
        (closeAll s.tipInfo s.tipKids s.ancs numLines s.lastLineLength))


mutual
/-- Number of nodes of kind `k` in a tree / a forest. -/
def countKind (k : NodeType) : BNode → Nat
  | .mk i kids => (if i.typ = k then 1 else 0) + countKindL k kids
def countKindL (k : NodeType) : List BNode → Nat
  | [] => 0
  | t :: ts => countKind k t + countKindL k ts
end

/-! ## Tree walker (`NodeWalker` in `ast.go`)

The walker navigates the finished tree through the pointer fields
`firstChild`, `next` and `parent`.  A position in an immutable tree is
embedded as a zipper location (focus plus the stack of ancestor frames);
each pointer dereference of the source corresponds to one zipper move, and
Go pointer equality between positions of one tree corresponds to equality
of locations.  The walker is always constructed on the root of the tree it
walks (as in `processInlines`, `forEachNode`, `dump` and the renderer), so
the start node is the location with an empty frame stack. -/

/-- `Node.isContainer`. -/
def BNode.isContainer (n : BNode) : Bool :=
  match n.typ with
  | .Document => true
  | .BlockQuote => true
  | .List => true
  | .Item => true
  | .Paragraph => true
  | .Header => true
  | .Emph => true
  | .Strong => true
  | .Link => true
  | .Image => true
  | _ => false

/-- One ancestor frame of a zipper location: the parent's scalar fields,
the elder siblings (nearest first) and the younger siblings (in order). -/
structure WFrame where
  pInfo : NodeInfo
  leftRev : List BNode
  right : List BNode

/-- A position in a tree: the focused node and the ancestor frames
(innermost first). -/
structure WLoc where
  focus : BNode
  path : List WFrame

/-- `nw.current.firstChild` as a zipper move. -/
def WLoc.firstChildLoc : WLoc → Option WLoc
  | ⟨.mk i (c :: cs), path⟩ => some ⟨c, ⟨i, [], cs⟩ :: path⟩
  | _ => none

/-- `nw.current.next` as a zipper move. -/
def WLoc.nextSiblingLoc : WLoc → Option WLoc
  | ⟨f, fr :: rest⟩ =>
    match fr.right with
    | r :: rs => some ⟨r, ⟨fr.pInfo, f :: fr.leftRev, rs⟩ :: rest⟩
    | [] => none
  | ⟨_, []⟩ => none

/-- `nw.current.parent` as a zipper move (reassembles the parent node). -/
def WLoc.parentLoc : WLoc → Option WLoc
  | ⟨f, fr :: rest⟩ =>
    some ⟨BNode.mk fr.pInfo (fr.leftRev.reverse ++ f :: fr.right), rest⟩
  | ⟨_, []⟩ => none

/-- `NodeWalker`: `rootSet` models whether the Go `root` field is still
`nil`; once set, the root is the start location, i.e. the one with an empty
path. -/
structure NodeWalker where
  current : Option WLoc
  rootSet : Bool
  entering : Bool

/-- `NewNodeWalker`. -/
def NewNodeWalker (root : BNode) : NodeWalker :=
  { current := some ⟨root, []⟩, rootSet := false, entering := true }

/-- `NodeWalker.next`: the step function.  Returns the yielded
`(node, entering)` pair (or `none` for Go's `nil` node) and the updated
walker. -/
def NodeWalker.next (w : NodeWalker) : Option (BNode × Bool) × NodeWalker :=
  match w.current with
  | none => (none, w)
  | some cur =>
    if ¬ w.rootSet then
      (some (cur.focus, w.entering), { w with rootSet := true })
    else
      let st :=
        if w.entering && cur.focus.isContainer then
          match cur.firstChildLoc with
          | some fc => (some fc, true)
          | none => (some cur, false)
        else
          match cur.nextSiblingLoc with
          | some ns => (some ns, true)
          | none => (cur.parentLoc, false)
      let w' := { w with current := st.1, entering := st.2 }
      match st.1 with
      | some l =>
        if l.path.isEmpty then (none, w')
        else (some (l.focus, st.2), w')
      | none => (none, w')

/-- Drive the walker as `forEachNode` does, collecting the yielded visits
until the walker reports `nil` (or the fuel runs out). -/
def walkerRun : Nat → NodeWalker → List (BNode × Bool)
  | 0, _ => []
  | fuel + 1, w =>
    match NodeWalker.next w with
    | (none, _) => []
    | (some ev, w') => ev :: walkerRun fuel w'

/-- Run the walker on a tree from `NewNodeWalker`. -/
def walkerTrace (t : BNode) (fuel : Nat) : List (BNode × Bool) :=
  walkerRun fuel (NewNodeWalker t)

/-- Exactly `n` walker steps, demanding that every one of them yields a
visit; `none` if any step yields Go's `nil`. -/
def runEmits : Nat → NodeWalker → Option (List (BNode × Bool) × NodeWalker)
  | 0, w => some ([], w)
  | n + 1, w =>
    match NodeWalker.next w with
    | (none, _) => none
    | (some e, w') =>
      match runEmits n w' with
      | some (evs, w'') => some (e :: evs, w'')
      | none => none

mutual
/-- The traversal described by the specification, for one subtree: an
entering visit, the children in order, and (for containers) an exiting
visit after the last child; a leaf gets a single entering visit. -/
def visitFull : BNode → List (BNode × Bool)
  | .mk i kids =>
    if (BNode.mk i kids).isContainer then
      (BNode.mk i kids, true) :: (visitFullL kids ++ [(BNode.mk i kids, false)])
    else [(BNode.mk i kids, true)]
def visitFullL : List BNode → List (BNode × Bool)
  | [] => []
  | t :: ts => visitFull t ++ visitFullL ts
end

/-- The full trace the specification assigns to a traversal started at the
root: the root's entering visit, then (for a container) the full visits of
its subtrees; the traversal stops where the root's exiting visit would be,
since control has returned to the start node, and a leaf root gets its
single entering visit only. -/
def specEvents (t : BNode) : List (BNode × Bool) :=
  if t.isContainer then (t, true) :: visitFullL t.children else [(t, true)]

mutual
/-- Number of walker steps needed to go from the arrival at a node to its
finished configuration. -/
def innerSteps : BNode → Nat
  | .mk i kids =>
    if (BNode.mk i kids).isContainer then innerStepsL kids + 1 else 0
def innerStepsL : List BNode → Nat
  | [] => 0
  | t :: ts => (innerSteps t + 1) + innerStepsL ts
end

/-- `entering` value of the configuration in which a node's subtree has
just been fully visited. -/
def finEntering (t : BNode) : Bool := !t.isContainer

/-! ## Sibling-list arena (`Node.unlink` / `Node.appendChild`)

`unlink` and `appendChild` rewire the five pointer fields; those two
functions are embedded over an arena of nodes addressed by index, with
`Option Nat` for possibly-nil pointers, so that the sibling-repair writes
can be stated exactly as the source performs them. -/

/-- The pointer fields of a Go `Node`. -/
structure GNode where
  parent : Option Nat
  firstChild : Option Nat
  lastChild : Option Nat
  prev : Option Nat
  next : Option Nat
deriving DecidableEq, Repr

/-- An arena: every index holds a node record. -/
def Arena : Type := Nat → GNode

/-- Update one node's record. -/
def setG (a : Arena) (i : Nat) (f : GNode → GNode) : Arena :=
  fun j => if j = i then f (a j) else a j

/-- `Node.unlink`, statement by statement: repair the elder side (or the
parent's `firstChild`), repair the younger side (or the parent's
`lastChild`), then clear the node's own links. -/
def unlink (a : Arena) (n : Nat) : Arena :=
  let a1 :=
    match (a n).prev with
    | some p => setG a p (fun g => { g with next := (a n).next })
    | none =>
      match (a n).parent with
      | some q => setG a q (fun g => { g with firstChild := (a n).next })
      | none => a
  let a2 :=
    match (a1 n).next with
    | some m => setG a1 m (fun g => { g with prev := (a1 n).prev })
    | none =>
      match (a1 n).parent with
      | some q => setG a1 q (fun g => { g with lastChild := (a1 n).prev })
      | none => a1
  setG a2 n (fun g => { g with parent := none, next := none, prev := none })

/-- `Node.appendChild`: detach the child, set its parent, then link it after
the current last child (or as the only child). -/
def appendChild (a : Arena) (par child : Nat) : Arena :=
  let a1 := unlink a child
  let a2 := setG a1 child (fun g => { g with parent := some par })
  match (a2 par).lastChild with
  | some lc =>
    let a3 := setG a2 lc (fun g => { g with next := some child })
    let a4 := setG a3 child (fun g => { g with prev := some lc })
    setG a4 par (fun g => { g with lastChild := some child })
  | none =>
    let a3 := setG a2 par (fun g => { g with firstChild := some child })
    setG a3 par (fun g => { g with lastChild := some child })

/-- Does the sibling chain starting at `cur` (whose elder sibling is
`prv`), all parented at `par`, spell exactly the index list `l`? -/
def chainB (a : Arena) (par : Nat) : Option Nat → Option Nat → List Nat → Bool
  | _, cur, [] => decide (cur = none)
  | prv, cur, x :: xs =>
    decide (cur = some x) && decide ((a x).parent = some par) &&
      decide ((a x).prev = prv) && chainB a par (some x) ((a x).next) xs

/-- `l` is exactly the child list of `par`: the `firstChild`/`next` chain
spells `l` with consistent `prev`/`parent` links, and `lastChild` points at
the last element. -/
def isChildList (a : Arena) (par : Nat) (l : List Nat) : Bool :=
  chainB a par none ((a par).firstChild) l &&
    decide ((a par).lastChild = l.getLast?)

/-! ## Block-parser invariant machinery (claim C9) -/

mutual
/-- Every node of the tree / of every tree of the forest is closed. -/
def allClosedTree : BNode → Bool
  | .mk i kids => !i.openFlag && allClosedForest kids
def allClosedForest : List BNode → Bool
  | [] => true
  | t :: ts => allClosedTree t && allClosedForest ts
end

/-- An instrumentation event is good when the node it touched was open. -/
def eventOk : PEvent → Bool
  | .addLineEv b => b
  | .finalizeEv b => b

/-- The block-parser invariant: every node on the open chain (tip and
ancestors) has `open = true`, every node hanging off the chain is closed
(together with its whole subtree), and every raw-content append and every
finalization so far hit an open node. -/
def parserInv (s : PState) : Bool :=
  s.tipInfo.openFlag && s.ancs.all (fun a => a.1.openFlag) &&
    allClosedForest s.tipKids &&
    s.ancs.all (fun a => allClosedForest a.2) &&
    s.log.all eventOk

/-! ### Literal parser states and result trees of the concrete runs

The intermediate parser states and final trees of the `Parser.parse` runs
used by claims C2, C3 and C4, written out literally; the run lemmas below
check them against the embedded parser. -/

def c3AT : BNode :=
  BNode.mk { typ := NodeType.Document, content := [], literal := [], level := 0, openFlag := false, lastLineBlank := false, srcLine := 1, srcChar := 1, endLine := 1, endChar := 7 } [BNode.mk { typ := NodeType.Header, content := [], literal := [], level := 1, openFlag := false, lastLineBlank := false, srcLine := 1, srcChar := 1, endLine := 1, endChar := 7 } [BNode.mk { typ := NodeType.Text, content := [], literal := [72, 101, 108, 108, 111], level := 0, openFlag := true, lastLineBlank := false, srcLine := 1, srcChar := 1, endLine := 0, endChar := 0 } []]]

def c3BT : BNode :=
  BNode.mk { typ := NodeType.Document, content := [], literal := [], level := 0, openFlag := false, lastLineBlank := false, srcLine := 1, srcChar := 1, endLine := 1, endChar := 9 } [BNode.mk { typ := NodeType.Paragraph, content := [], literal := [], level := 0, openFlag := false, lastLineBlank := false, srcLine := 1, srcChar := 1, endLine := 1, endChar := 9 } [BNode.mk { typ := NodeType.Text, content := [], literal := [35, 35, 35, 35, 35, 35, 35, 32, 120], level := 0, openFlag := true, lastLineBlank := false, srcLine := 1, srcChar := 1, endLine := 0, endChar := 0 } []]]

def c4S1 : PState :=
  { tipInfo := { typ := NodeType.Paragraph, content := [102, 111, 111, 10], literal := [], level := 0, openFlag := true, lastLineBlank := false, srcLine := 1, srcChar := 2, endLine := 0, endChar := 0 }, tipKids := [], ancs := [({ typ := NodeType.BlockQuote, content := [], literal := [], level := 0, openFlag := true, lastLineBlank := false, srcLine := 1, srcChar := 1, endLine := 0, endChar := 0 }, []), ({ typ := NodeType.Document, content := [], literal := [], level := 0, openFlag := true, lastLineBlank := false, srcLine := 1, srcChar := 1, endLine := 0, endChar := 0 }, [])], lineNumber := 1, lastLineLength := 4, offset := 1, column := 1, nextNonspace := 1, nextNonspaceColumn := 1, indent := 0, indented := false, blank := false, allClosed := true, lastMatchedDepth := 0, currentLine := [62, 102, 111, 111], log := [PEvent.addLineEv true] }

def c4S2 : PState :=
  { tipInfo := { typ := NodeType.Paragraph, content := [102, 111, 111, 10, 98, 97, 114, 10], literal := [], level := 0, openFlag := true, lastLineBlank := false, srcLine := 1, srcChar := 2, endLine := 0, endChar := 0 }, tipKids := [], ancs := [({ typ := NodeType.BlockQuote, content := [], literal := [], level := 0, openFlag := true, lastLineBlank := false, srcLine := 1, srcChar := 1, endLine := 0, endChar := 0 }, []), ({ typ := NodeType.Document, content := [], literal := [], level := 0, openFlag := true, lastLineBlank := false, srcLine := 1, srcChar := 1, endLine := 0, endChar := 0 }, [])], lineNumber := 2, lastLineLength := 3, offset := 0, column := 1, nextNonspace := 0, nextNonspaceColumn := 1, indent := 0, indented := false, blank := false, allClosed := false, lastMatchedDepth := 0, currentLine := [98, 97, 114], log := [PEvent.addLineEv true, PEvent.addLineEv true] }

def c4T0 : BNode :=
  BNode.mk { typ := NodeType.Document, content := [], literal := [], level := 0, openFlag := false, lastLineBlank := false, srcLine := 1, srcChar := 1, endLine := 2, endChar := 3 } [BNode.mk { typ := NodeType.BlockQuote, content := [], literal := [], level := 0, openFlag := false, lastLineBlank := false, srcLine := 1, srcChar := 1, endLine := 2, endChar := 3 } [BNode.mk { typ := NodeType.Paragraph, content := [102, 111, 111, 10, 98, 97, 114, 10], literal := [], level := 0, openFlag := false, lastLineBlank := false, srcLine := 1, srcChar := 2, endLine := 2, endChar := 3 } []]]

def c4T : BNode :=
  BNode.mk { typ := NodeType.Document, content := [], literal := [], level := 0, openFlag := false, lastLineBlank := false, srcLine := 1, srcChar := 1, endLine := 2, endChar := 3 } [BNode.mk { typ := NodeType.BlockQuote, content := [], literal := [], level := 0, openFlag := false, lastLineBlank := false, srcLine := 1, srcChar := 1, endLine := 2, endChar := 3 } [BNode.mk { typ := NodeType.Paragraph, content := [], literal := [], level := 0, openFlag := false, lastLineBlank := false, srcLine := 1, srcChar := 2, endLine := 2, endChar := 3 } [BNode.mk { typ := NodeType.Text, content := [], literal := [102, 111, 111], level := 0, openFlag := true, lastLineBlank := false, srcLine := 1, srcChar := 1, endLine := 0, endChar := 0 } [], BNode.mk { typ := NodeType.Text, content := [], literal := [10], level := 0, openFlag := true, lastLineBlank := false, srcLine := 1, srcChar := 1, endLine := 0, endChar := 0 } [], BNode.mk { typ := NodeType.Text, content := [], literal := [98, 97, 114], level := 0, openFlag := true, lastLineBlank := false, srcLine := 1, srcChar := 1, endLine := 0, endChar := 0 } []]]]

def c2AT : BNode :=
  BNode.mk { typ := NodeType.Document, content := [], literal := [], level := 0, openFlag := false, lastLineBlank := false, srcLine := 1, srcChar := 1, endLine := 1, endChar := 5 } [BNode.mk { typ := NodeType.Paragraph, content := [], literal := [], level := 0, openFlag := false, lastLineBlank := false, srcLine := 1, srcChar := 1, endLine := 1, endChar := 5 } [BNode.mk { typ := NodeType.Text, content := [], literal := [42], level := 0, openFlag := true, lastLineBlank := false, srcLine := 1, srcChar := 1, endLine := 0, endChar := 0 } [], BNode.mk { typ := NodeType.Text, content := [], literal := [102, 111, 111], level := 0, openFlag := true, lastLineBlank := false, srcLine := 1, srcChar := 1, endLine := 0, endChar := 0 } [], BNode.mk { typ := NodeType.Text, content := [], literal := [42], level := 0, openFlag := true, lastLineBlank := false, srcLine := 1, srcChar := 1, endLine := 0, endChar := 0 } []]]

def c2BT : BNode :=
  BNode.mk { typ := NodeType.Document, content := [], literal := [], level := 0, openFlag := false, lastLineBlank := false, srcLine := 1, srcChar := 1, endLine := 1, endChar := 7 } [BNode.mk { typ := NodeType.Paragraph, content := [], literal := [], level := 0, openFlag := false, lastLineBlank := false, srcLine := 1, srcChar := 1, endLine := 1, endChar := 7 } [BNode.mk { typ := NodeType.Text, content := [], literal := [42, 42], level := 0, openFlag := true, lastLineBlank := false, srcLine := 1, srcChar := 1, endLine := 0, endChar := 0 } [], BNode.mk { typ := NodeType.Text, content := [], literal := [102, 111, 111], level := 0, openFlag := true, lastLineBlank := false, srcLine := 1, srcChar := 1, endLine := 0, endChar := 0 } [], BNode.mk { typ := NodeType.Text, content := [], literal := [42, 42], level := 0, openFlag := true, lastLineBlank := false, srcLine := 1, srcChar := 1, endLine := 0, endChar := 0 } []]]

def c2CT : BNode :=
  BNode.mk { typ := NodeType.Document, content := [], literal := [], level := 0, openFlag := false, lastLineBlank := false, srcLine := 1, srcChar := 1, endLine := 1, endChar := 11 } [BNode.mk { typ := NodeType.Paragraph, content := [], literal := [], level := 0, openFlag := false, lastLineBlank := false, srcLine := 1, srcChar := 1, endLine := 1, endChar := 11 } [BNode.mk { typ := NodeType.Text, content := [], literal := [102, 111, 111], level := 0, openFlag := true, lastLineBlank := false, srcLine := 1, srcChar := 1, endLine := 0, endChar := 0 } [], BNode.mk { typ := NodeType.Text, content := [], literal := [95], level := 0, openFlag := true, lastLineBlank := false, srcLine := 1, srcChar := 1, endLine := 0, endChar := 0 } [], BNode.mk { typ := NodeType.Text, content := [], literal := [98, 97, 114], level := 0, openFlag := true, lastLineBlank := false, srcLine := 1, srcChar := 1, endLine := 0, endChar := 0 } [], BNode.mk { typ := NodeType.Text, content := [], literal := [95], level := 0, openFlag := true, lastLineBlank := false, srcLine := 1, srcChar := 1, endLine := 0, endChar := 0 } [], BNode.mk { typ := NodeType.Text, content := [], literal := [98, 97, 122], level := 0, openFlag := true, lastLineBlank := false, srcLine := 1, srcChar := 1, endLine := 0, endChar := 0 } []]]

/-- The tree- and log-components of a parser state are untouched by an
operation (cursor-only operations satisfy this). -/
def treeLogEq (s s' : PState) : Prop :=
  s'.tipInfo = s.tipInfo ∧ s'.tipKids = s.tipKids ∧ s'.ancs = s.ancs ∧
    s'.log = s.log

/-- All maximal closed subtrees hanging off the open chain. -/
def closedForest (s : PState) : List BNode :=
  s.tipKids ++ s.ancs.flatMap (fun a => a.2)

mutual
/-- Every subtree of a tree (the tree itself included) / of a forest. -/
def subtreesOf : BNode → List BNode
  | .mk i kids => BNode.mk i kids :: subtreesIn kids
def subtreesIn : List BNode → List BNode
  | [] => []
  | t :: ts => subtreesOf t ++ subtreesIn ts
end

/-- The blank-line marker write `node.lastLineBlank = true` applied to the
root of a subtree. -/
def setBlankRoot : BNode → BNode
  | .mk i kids => .mk { i with lastLineBlank := true } kids

/-- Every closed subtree present before an operation is still present
after it, except that its root may have received the blank-line marker
(the only write the block parser ever performs on a closed node). -/
def closedPres (s s' : PState) : Prop :=
  ∀ t, t ∈ subtreesIn (closedForest s) →
    t ∈ subtreesIn (closedForest s') ∨
      setBlankRoot t ∈ subtreesIn (closedForest s')

/-- Concrete cursor states for the C10 witness: a tab at offset 0, cursor
at column 5. -/
def c10state : PState :=
  { initialParser with currentLine := [byteTab], column := 5 }

/-- The state after advancing over the tab: offset 1, column 8. -/
def c10state' : PState :=
  { initialParser with currentLine := [byteTab], column := 8, offset := 1 }

/-- The parser state after incorporating the single line `para`: an open
Paragraph holding the raw line, sitting directly under the open Document
root (see `c5_para_line`). -/
def c5state : PState :=
  { tipInfo := { typ := .Paragraph, content := bytesOfString "para" ++ [byteNL],
                 literal := [], level := 0, openFlag := true,
                 lastLineBlank := false, srcLine := 1, srcChar := 1,
                 endLine := 0, endChar := 0 },
    tipKids := [], ancs := [(docInfo, [])],
    lineNumber := 1, lastLineLength := 4, offset := 0, column := 0,
    nextNonspace := 0, nextNonspaceColumn := 0, indent := 0,
    indented := false, blank := false, allClosed := true,
    lastMatchedDepth := 0, currentLine := bytesOfString "para",
    log := [.addLineEv true] }

/-! ### Chain segments and a concrete arena (claim C8) -/

/-- Like `chainB`, but the walk ends at an arbitrary stop pointer instead
of `none`: the sibling chain starting at `cur` (elder sibling `prv`) spells
`l` and then points at `stop`. -/
def chainSeg (a : Arena) (par : Nat) :
    Option Nat → Option Nat → List Nat → Option Nat → Bool
  | _, cur, [], stop => decide (cur = stop)
  | prv, cur, x :: xs, stop =>
    decide (cur = some x) && decide ((a x).parent = some par) &&
      decide ((a x).prev = prv) && chainSeg a par (some x) ((a x).next) xs stop

/-- The elder-sibling pointer seen immediately after the segment `xs`,
entered with elder sibling `prv`. -/
def lastO (xs : List Nat) (prv : Option Nat) : Option Nat :=
  match xs.getLast? with
  | some w => some w
  | none => prv

/-- A concrete seven-node arena for the C8 witness: node 0 has children
`[1, 2]`, node 3 has children `[4, 5, 6]`. -/
def c8arena : Arena := fun i =>
  if i = 0 then ⟨none, some 1, some 2, none, none⟩
  else if i = 1 then ⟨some 0, none, none, none, some 2⟩
  else if i = 2 then ⟨some 0, none, none, some 1, none⟩
  else if i = 3 then ⟨none, some 4, some 6, none, none⟩
  else if i = 4 then ⟨some 3, none, none, none, some 5⟩
  else if i = 5 then ⟨some 3, none, none, some 4, some 6⟩
  else if i = 6 then ⟨some 3, none, none, some 5, none⟩
  else ⟨none, none, none, none, none⟩

/-! ## Helper lemmas: inline tokenizer -/

theorem handleDelim_progress (subject : List Nat) (pos : Nat) (ch : Nat)
    (pos' : Nat) (node : BNode)
    (h : handleDelim subject pos ch = some (pos', node)) : pos < pos' := by
  by_cases hnd : scanDelims subject pos ch < 1
  · simp [handleDelim, hnd] at h
  · simp only [handleDelim, hnd, if_false] at h
    simp only [Option.some.injEq, Prod.mk.injEq] at h
    omega

theorem parseString_progress (subject : List Nat) (pos : Nat)
    (pos' : Nat) (node : BNode)
    (h : parseString subject pos = some (pos', node)) : pos < pos' := by
  by_cases hm : ((subject.drop pos).takeWhile isMainByte) = []
  · simp [parseString, hm] at h
  · simp only [parseString, hm, if_false] at h
    simp only [Option.some.injEq, Prod.mk.injEq] at h
    have : 0 < ((subject.drop pos).takeWhile isMainByte).length :=
      List.length_pos.mpr hm
    omega

theorem parseInline_progress (subject : List Nat) (pos : Nat) (pos' : Nat)
    (node : BNode) (h : parseInline subject pos = some (pos', node)) :
    pos < pos' := by
  by_cases h255 : ipPeek subject pos = 255
  · simp [parseInline, h255] at h
  · simp only [parseInline, h255, if_false] at h
    rcases heq : (if ipPeek subject pos = byteStar ∨ ipPeek subject pos = byteUnderscore
        then handleDelim subject pos (ipPeek subject pos)
        else parseString subject pos) with _ | r
    · rw [heq] at h
      simp only [Option.some.injEq, Prod.mk.injEq] at h
      omega
    · rw [heq] at h
      cases h
      by_cases hch : ipPeek subject pos = byteStar ∨ ipPeek subject pos = byteUnderscore
      · rw [if_pos hch] at heq
        exact handleDelim_progress subject pos _ _ _ heq
      · rw [if_neg hch] at heq
        exact parseString_progress subject pos _ _ heq

theorem parseInline_none_iff (subject : List Nat) (pos : Nat) :
    parseInline subject pos = none ↔ ipPeek subject pos = 255 := by
  constructor
  · intro h
    by_cases h255 : ipPeek subject pos = 255
    · exact h255
    · exfalso
      simp only [parseInline, h255, if_false] at h
      rcases heq : (if ipPeek subject pos = byteStar ∨ ipPeek subject pos = byteUnderscore
          then handleDelim subject pos (ipPeek subject pos)
          else parseString subject pos) with _ | r
      · rw [heq] at h
        exact Option.noConfusion h
      · rw [heq] at h
        exact Option.noConfusion h
  · intro h
    simp [parseInline, h]

theorem ipPeek_ne_lt_length (subject : List Nat) (pos : Nat)
    (h : ¬ ipPeek subject pos = 255) : pos < subject.length := by
  by_contra hc
  have hnone : subject[pos]? = none := List.getElem?_eq_none (by omega)
  simp [ipPeek, hnone] at h

theorem drop_cons_of_getElem (l : List Nat) (n : Nat) (b : Nat)
    (h : l[n]? = some b) : l.drop n = b :: l.drop (n + 1) := by
  obtain ⟨hn, hb⟩ := List.getElem?_eq_some_iff.mp h
  rw [List.drop_eq_getElem_cons hn, hb]

/-- Each successful tokenize step appends a Text node holding exactly the
bytes it consumed. -/
theorem parseInline_literal (subject : List Nat) (pos : Nat) (pos' : Nat)
    (node : BNode) (h : parseInline subject pos = some (pos', node)) :
    node.info.literal = (subject.drop pos).take (pos' - pos) := by
  by_cases h255 : ipPeek subject pos = 255
  · simp [parseInline, h255] at h
  · have hb : subject[pos]? = some (ipPeek subject pos) := by
      rcases hg : subject[pos]? with _ | b
      · simp [ipPeek, hg] at h255
      · simp [ipPeek, hg]
    simp only [parseInline, h255, if_false] at h
    rcases heq : (if ipPeek subject pos = byteStar ∨ ipPeek subject pos = byteUnderscore
        then handleDelim subject pos (ipPeek subject pos)
        else parseString subject pos) with _ | r
    · rw [heq] at h
      simp only [Option.some.injEq, Prod.mk.injEq] at h
      obtain ⟨hpos, hnode⟩ := h
      subst hnode
      have : (subject.drop pos).take (pos' - pos) = [ipPeek subject pos] := by
        rw [drop_cons_of_getElem subject pos _ hb]
        have : pos' - pos = 1 := by omega
        rw [this]
        rfl
      rw [this]
      rfl
    · rw [heq] at h
      cases h
      by_cases hch : ipPeek subject pos = byteStar ∨ ipPeek subject pos = byteUnderscore
      · rw [if_pos hch] at heq
        have hnq : ¬ (ipPeek subject pos = 39 ∨ ipPeek subject pos = 34) := by
          rcases hch with hc | hc <;> simp [hc, byteStar, byteUnderscore]
        by_cases hnd : scanDelims subject pos (ipPeek subject pos) < 1
        · simp [handleDelim, hnd] at heq
        · simp only [handleDelim, hnd, if_false, hnq] at heq
          simp only [Option.some.injEq, Prod.mk.injEq] at heq
          obtain ⟨hpos, hnode⟩ := heq
          subst hnode
          have : pos' - pos = scanDelims subject pos (ipPeek subject pos) := by omega
          rw [this]
          rfl
      · rw [if_neg hch] at heq
        by_cases hm : ((subject.drop pos).takeWhile isMainByte) = []
        · simp [parseString, hm] at heq
        · simp only [parseString, hm, if_false] at heq
          simp only [Option.some.injEq, Prod.mk.injEq] at heq
          obtain ⟨hpos, hnode⟩ := heq
          subst hnode
          have hpre : (subject.drop pos).takeWhile isMainByte <+: subject.drop pos :=
            List.takeWhile_prefix _
          have : pos' - pos = ((subject.drop pos).takeWhile isMainByte).length := by
            omega
          rw [this, ← List.prefix_iff_eq_take.mp hpre]
          rfl

/-- The tokenize loop always finishes within `subject.length - pos + 1`
steps: no input makes the inline pass diverge or fail. -/
theorem ipLoop_total (subject : List Nat) :
    ∀ (fuel pos : Nat) (acc : List BNode), subject.length - pos < fuel →
      ∃ cs, ipLoop subject fuel pos acc = some cs := by
  intro fuel
  induction fuel with
  | zero => intro pos acc h; omega
  | succ f ih =>
    intro pos acc h
    rcases hp : parseInline subject pos with _ | pr
    · exact ⟨acc, by simp [ipLoop, hp]⟩
    · obtain ⟨pos', node⟩ := pr
      have hlt := parseInline_progress subject pos pos' node hp
      have hlen : pos < subject.length := by
        apply ipPeek_ne_lt_length
        intro h255
        rw [(parseInline_none_iff subject pos).mpr h255] at hp
        exact Option.noConfusion hp
      obtain ⟨cs, hcs⟩ := ih pos' (acc ++ [node]) (by omega)
      exact ⟨cs, by simp [ipLoop, hp, hcs]⟩

/-- On a subject free of the byte `0xFF` (which collides with the peek
sentinel), the tokenize loop consumes the whole subject and every consumed
byte reappears in the literal text of the produced nodes. -/
theorem ipLoop_concat (subject : List Nat) (hfree : ∀ b ∈ subject, b ≠ 255) :
    ∀ (fuel pos : Nat) (acc : List BNode), subject.length - pos < fuel →
      ∃ cs, ipLoop subject fuel pos acc = some cs ∧
        concatLiterals cs = concatLiterals acc ++ subject.drop pos := by
  intro fuel
  induction fuel with
  | zero => intro pos acc h; omega
  | succ f ih =>
    intro pos acc h
    rcases hp : parseInline subject pos with _ | pr
    · have h255 : ipPeek subject pos = 255 := (parseInline_none_iff subject pos).mp hp
      have hge : subject.length ≤ pos := by
        by_contra hc
        have hlt : pos < subject.length := by omega
        rcases hg : subject[pos]? with _ | b
        · rw [List.getElem?_eq_none_iff] at hg
          omega
        · have hmem : b ∈ subject := List.getElem?_mem hg
          have : b = 255 := by simp [ipPeek, hg] at h255; exact h255
          exact hfree b hmem this
      refine ⟨acc, by simp [ipLoop, hp], ?_⟩
      rw [List.drop_eq_nil_of_le hge]
      simp
    · obtain ⟨pos', node⟩ := pr
      have hlt := parseInline_progress subject pos pos' node hp
      have hlen : pos < subject.length := by
        apply ipPeek_ne_lt_length
        intro h255
        rw [(parseInline_none_iff subject pos).mpr h255] at hp
        exact Option.noConfusion hp
      obtain ⟨cs, hcs, hconcat⟩ := ih pos' (acc ++ [node]) (by omega)
      refine ⟨cs, by simp [ipLoop, hp, hcs], ?_⟩
      rw [hconcat]
      have hlit := parseInline_literal subject pos pos' node hp
      have hsplit : subject.drop pos =
          (subject.drop pos).take (pos' - pos) ++ subject.drop pos' := by
        have := List.take_append_drop (pos' - pos) (subject.drop pos)
        rw [List.drop_drop] at this
        have hpp : pos + (pos' - pos) = pos' := by omega
        rw [hpp] at this
        exact this.symm
      rw [hsplit]
      simp only [concatLiterals, List.flatMap_append]
      simp [hlit]




set_option maxHeartbeats 4000000 in
theorem c3A_run : Parser.parse (bytesOfString "# Hello\n") = some c3AT := by
  simp [Parser.parse, splitNL, bytesOfString, incorporateLine, descendLoop, descendBroken, docLastChild, chainInfos,
    findNextNonspace, fnnsLoop, blockContinue, peekLine, advanceNextNonspace,
    advanceOffset, aoLoop, typeAtDepth, blockAcceptsLines, triggerLoop,
    atxHeaderTrigger, atxMatch, hruleTrigger, hruleFind, blockquoteTrigger,
    closeUnmatchedBlocks, cubLoop, finalizeTip, closeNodeInfo, addChild,
    addChildLoop, blockCanContain, addLine, incorporateTail, setLastKidBlank,
    setChainBlank, bytesTrim, reLeftStrip, reLeftAll, reRightStrip, reRightSuffix,
    initialParser, docInfo, closeAll, processInlinesTree, processInlinesKids,
    inlineChildren, inlineRun,
    ipLoop, parseInline, ipPeek, handleDelim, scanDelims, parseString, isMainByte,
    textNode, c3AT,
    byteNL, byteCR, byteSpace, byteTab, byteHash, byteStar, byteUnderscore,
    byteDash, byteGt, List.range_succ]



set_option maxHeartbeats 4000000 in
theorem c3B_run : Parser.parse (bytesOfString "####### x\n") = some c3BT := by
  simp [Parser.parse, splitNL, bytesOfString, incorporateLine, descendLoop, descendBroken, docLastChild, chainInfos,
    findNextNonspace, fnnsLoop, blockContinue, peekLine, advanceNextNonspace,
    advanceOffset, aoLoop, typeAtDepth, blockAcceptsLines, triggerLoop,
    atxHeaderTrigger, atxMatch, hruleTrigger, hruleFind, blockquoteTrigger,
    closeUnmatchedBlocks, cubLoop, finalizeTip, closeNodeInfo, addChild,
    addChildLoop, blockCanContain, addLine, incorporateTail, setLastKidBlank,
    setChainBlank, bytesTrim, reLeftStrip, reLeftAll, reRightStrip, reRightSuffix,
    initialParser, docInfo, closeAll, processInlinesTree, processInlinesKids,
    inlineChildren, inlineRun,
    ipLoop, parseInline, ipPeek, handleDelim, scanDelims, parseString, isMainByte,
    textNode, c3BT,
    byteNL, byteCR, byteSpace, byteTab, byteHash, byteStar, byteUnderscore,
    byteDash, byteGt, List.range_succ]



set_option maxHeartbeats 4000000 in
theorem c2A_run : Parser.parse (bytesOfString "*foo*\n") = some c2AT := by
  simp [Parser.parse, splitNL, bytesOfString, incorporateLine, descendLoop, descendBroken, docLastChild, chainInfos,
    findNextNonspace, fnnsLoop, blockContinue, peekLine, advanceNextNonspace,
    advanceOffset, aoLoop, typeAtDepth, blockAcceptsLines, triggerLoop,
    atxHeaderTrigger, atxMatch, hruleTrigger, hruleFind, blockquoteTrigger,
    closeUnmatchedBlocks, cubLoop, finalizeTip, closeNodeInfo, addChild,
    addChildLoop, blockCanContain, addLine, incorporateTail, setLastKidBlank,
    setChainBlank, bytesTrim, reLeftStrip, reLeftAll, reRightStrip, reRightSuffix,
    initialParser, docInfo, closeAll, processInlinesTree, processInlinesKids,
    inlineChildren, inlineRun,
    ipLoop, parseInline, ipPeek, handleDelim, scanDelims, parseString, isMainByte,
    textNode, c2AT,
    byteNL, byteCR, byteSpace, byteTab, byteHash, byteStar, byteUnderscore,
    byteDash, byteGt, List.range_succ]



set_option maxHeartbeats 4000000 in
theorem c2B_run : Parser.parse (bytesOfString "**foo**\n") = some c2BT := by
  simp [Parser.parse, splitNL, bytesOfString, incorporateLine, descendLoop, descendBroken, docLastChild, chainInfos,
    findNextNonspace, fnnsLoop, blockContinue, peekLine, advanceNextNonspace,
    advanceOffset, aoLoop, typeAtDepth, blockAcceptsLines, triggerLoop,
    atxHeaderTrigger, atxMatch, hruleTrigger, hruleFind, blockquoteTrigger,
    closeUnmatchedBlocks, cubLoop, finalizeTip, closeNodeInfo, addChild,
    addChildLoop, blockCanContain, addLine, incorporateTail, setLastKidBlank,
    setChainBlank, bytesTrim, reLeftStrip, reLeftAll, reRightStrip, reRightSuffix,
    initialParser, docInfo, closeAll, processInlinesTree, processInlinesKids,
    inlineChildren, inlineRun,
    ipLoop, parseInline, ipPeek, handleDelim, scanDelims, parseString, isMainByte,
    textNode, c2BT,
    byteNL, byteCR, byteSpace, byteTab, byteHash, byteStar, byteUnderscore,
    byteDash, byteGt, List.range_succ]



set_option maxHeartbeats 4000000 in
theorem c2C_run : Parser.parse (bytesOfString "foo_bar_baz\n") = some c2CT := by
  simp [Parser.parse, splitNL, bytesOfString, incorporateLine, descendLoop, descendBroken, docLastChild, chainInfos,
    findNextNonspace, fnnsLoop, blockContinue, peekLine, advanceNextNonspace,
    advanceOffset, aoLoop, typeAtDepth, blockAcceptsLines, triggerLoop,
    atxHeaderTrigger, atxMatch, hruleTrigger, hruleFind, blockquoteTrigger,
    closeUnmatchedBlocks, cubLoop, finalizeTip, closeNodeInfo, addChild,
    addChildLoop, blockCanContain, addLine, incorporateTail, setLastKidBlank,
    setChainBlank, bytesTrim, reLeftStrip, reLeftAll, reRightStrip, reRightSuffix,
    initialParser, docInfo, closeAll, processInlinesTree, processInlinesKids,
    inlineChildren, inlineRun,
    ipLoop, parseInline, ipPeek, handleDelim, scanDelims, parseString, isMainByte,
    textNode, c2CT,
    byteNL, byteCR, byteSpace, byteTab, byteHash, byteStar, byteUnderscore,
    byteDash, byteGt, List.range_succ]

/-! ### The two-line lazy-continuation run (claim C4), line by line -/

set_option maxHeartbeats 1600000 in
theorem c4_line1 : incorporateLine initialParser [62, 102, 111, 111] = some c4S1 := by rfl

set_option maxHeartbeats 1600000 in
theorem c4_line2 : incorporateLine c4S1 [98, 97, 114] = some c4S2 := by rfl

set_option maxHeartbeats 1600000 in
theorem c4_close : closeAll c4S2.tipInfo c4S2.tipKids c4S2.ancs 2 c4S2.lastLineLength = c4T0 := by rfl

set_option maxHeartbeats 1600000 in
theorem c4_inline : processInlinesTree c4T0 = c4T := by rfl

theorem c4_split : splitNL [62, 102, 111, 111, 10, 98, 97, 114, 10] = [[62, 102, 111, 111], [98, 97, 114], []] := by rfl

set_option maxHeartbeats 1600000 in
theorem c4_run : Parser.parse (bytesOfString ">foo\nbar\n") = some c4T := by
  simp [Parser.parse, c4_split, c4_line1, c4_line2, c4_close, c4_inline,
    bytesOfString, byteNL, List.foldlM]


/-! ## Claim theorems -/

/-- C1: the claim says `Parser.parse` terminates with a `Document`-rooted
tree for every byte input and that no input causes a core failure; but on
the empty input the Go source evaluates `input[len(input)-1]` before
processing any line, an out-of-range index that panics at runtime.  This
theorem evaluates the embedded `Parser.parse` at that failing input: the
access yields `none`, the modelled panic. -/
theorem c1_empty_input_panics : Parser.parse [] = none := by rfl

/-- C3: `# Hello` parses to exactly one child of the root: a `Header` of
level 1 whose inline text reads `Hello`, and it is the only Header in the
tree; `####### x` (seven hashes) produces a tree with no Header at all,
whose only child is a `Paragraph` reading `####### x` verbatim. -/
theorem c3_atx_header_bounds :
    (Parser.parse (bytesOfString "# Hello\n")).map (fun t =>
        (countKind .Header t,
         t.children.map (fun c =>
           (c.typ, c.info.level, concatLiterals c.children))))
      = some (1, [(NodeType.Header, 1, bytesOfString "Hello")]) ∧
    (Parser.parse (bytesOfString "####### x\n")).map (fun t =>
        (countKind .Header t,
         t.children.map (fun c => (c.typ, concatLiterals c.children))))
      = some (0, [(NodeType.Paragraph, bytesOfString "####### x")]) := by
  rw [c3A_run, c3B_run]
  exact ⟨by rfl, by rfl⟩

/-- C4: `>foo` followed by `bar` parses to exactly one `BlockQuote` holding
exactly one `Paragraph` whose text is `foo`, newline, `bar`: the second,
unmarked line is a lazy continuation of the quoted paragraph.  (The raw
buffer accumulated by `addLine` is `foo\nbar\n` — see `c4S2` — and the
inline pass trims the trailing newline, leaving the paragraph text
`foo\nbar`.) -/
theorem c4_lazy_continuation :
    (Parser.parse (bytesOfString ">foo\nbar\n")).map (fun t =>
        (t.children.map BNode.typ,
         t.children.map (fun b =>
           b.children.map (fun p => (p.typ, concatLiterals p.children)))))
      = some ([NodeType.BlockQuote],
              [[(NodeType.Paragraph, bytesOfString "foo\nbar")]]) := by
  rw [c4_run]
  rfl

/-- C2: the claim says `*foo*` parses to `Emph[Text "foo"]` and `**foo**`
to `Strong[Text "foo"]`.  In the source, `processEmphasis` is an empty
`TODO` stub and `scanDelims` hard-codes `canOpen = canClose = false`, so no
Emph or Strong node is ever created: both inputs keep their delimiter runs
as literal Text inside a Paragraph, while `foo_bar_baz` (the claim's third
part, which does hold) keeps both underscores literal. -/
theorem c2_no_emphasis_is_built :
    (Parser.parse (bytesOfString "*foo*\n")).map (fun t =>
        (countKind .Emph t, countKind .Strong t,
         t.children.map (fun p =>
           p.children.map (fun c => (c.typ, c.info.literal)))))
      = some (0, 0,
          [[(NodeType.Text, bytesOfString "*"),
            (NodeType.Text, bytesOfString "foo"),
            (NodeType.Text, bytesOfString "*")]]) ∧
    (Parser.parse (bytesOfString "**foo**\n")).map (fun t =>
        (countKind .Emph t, countKind .Strong t,
         t.children.map (fun p =>
           p.children.map (fun c => c.info.literal))))
      = some (0, 0,
          [[bytesOfString "**", bytesOfString "foo", bytesOfString "**"]]) ∧
    (Parser.parse (bytesOfString "foo_bar_baz\n")).map (fun t =>
        (countKind .Emph t,
         t.children.map (fun p =>
           p.children.map (fun c => c.info.literal))))
      = some (0,
          [[bytesOfString "foo", bytesOfString "_", bytesOfString "bar",
            bytesOfString "_", bytesOfString "baz"]]) := by
  rw [c2A_run, c2B_run, c2C_run]
  exact ⟨by rfl, by rfl, by rfl⟩

/-- C6 counterexample: in the buffer `0xFF 0x2A` the leading `0xFF` byte
collides with the peek sentinel (`return 255` for end-of-input in
`InlineParser.peek`), so the tokenize loop stops before reaching the `*`:
the delimiter run is dropped from the output — the produced literal text is
empty, not `0xFF *`.  This refutes the claim that an unmatched delimiter
run always remains in the output as literal text. -/
theorem c6_ff_byte_drops_delimiter :
    (inlineRun [255, byteStar]).map concatLiterals = some [] := by rfl

/-- C6 (amended): inline tokenization never fails — for every buffer the
loop of `InlineParser.parse` terminates within `length + 1` steps — and for
every buffer free of the byte `0xFF` (which is indistinguishable from the
peek sentinel), the concatenation of the literal text of the produced Text
nodes is the whole buffer: in particular every delimiter run that no
emphasis match consumed (no match ever consumes any, see C2) remains in the
output as literal text, never dropped. -/
theorem c6_inline_total_and_preserving :
    (∀ subject : List Nat, ∃ cs, inlineRun subject = some cs) ∧
    (∀ subject : List Nat, (∀ b ∈ subject, b ≠ 255) →
      ∃ cs, inlineRun subject = some cs ∧ concatLiterals cs = subject) := by
  constructor
  · intro subject
    exact ipLoop_total subject (subject.length + 1) 0 [] (by omega)
  · intro subject hfree
    obtain ⟨cs, h1, h2⟩ :=
      ipLoop_concat subject hfree (subject.length + 1) 0 [] (by omega)
    refine ⟨cs, h1, ?_⟩
    simpa [concatLiterals] using h2

/-- Witness for C6 at the claim's own example `*foo`: tokenization
succeeds and the unmatched `*` remains in the output literal text. -/
theorem c6_witness :
    ∃ cs, inlineRun (bytesOfString "*foo") = some cs ∧
      concatLiterals cs = bytesOfString "*foo" :=
  c6_inline_total_and_preserving.2 (bytesOfString "*foo") (by decide)

/-! ## Claim C10: tab-aware column arithmetic -/

/-- C10: when the byte at the cursor is a tab, `advanceOffset` by one
non-column unit moves the byte offset by exactly 1 while the display column
jumps to the next multiple of 4 after the current column (between 1 and 4
columns, so not a fixed width); and `findNextNonspace` leaves the byte
offset untouched while deriving `indent` as a column difference and the
`indented` flag as the column-based test `indent ≥ 4`. -/
theorem c10_tab_and_indent (s : PState)
    (htab : s.currentLine[s.offset]? = some byteTab)
    (s' : PState) (hrun : advanceOffset s 1 false = some s') :
    (s'.offset = s.offset + 1 ∧
     s'.column = s.column + (4 - s.column % 4) ∧
     s'.column = 4 * (s.column / 4 + 1) ∧
     s.column < s'.column ∧ s'.column ≤ s.column + 4) ∧
    ((findNextNonspace s).offset = s.offset ∧
     (findNextNonspace s).indent
        = (findNextNonspace s).nextNonspaceColumn - s.column ∧
     (findNextNonspace s).indented
        = decide ((findNextNonspace s).indent ≥ 4)) := by
  constructor
  · have hoff : s.offset + 0 = s.offset := by omega
    simp only [advanceOffset, aoLoop, hoff, htab] at hrun
    norm_num at hrun
    subst hrun
    refine ⟨rfl, rfl, ?_, ?_, ?_⟩
    · show s.column + (4 - s.column % 4) = 4 * (s.column / 4 + 1)
      omega
    · show s.column < s.column + (4 - s.column % 4)
      omega
    · show s.column + (4 - s.column % 4) ≤ s.column + 4
      omega
  · refine ⟨by simp [findNextNonspace], by simp [findNextNonspace], ?_⟩
    simp [findNextNonspace]

/-- Witness for C10: a tab at offset 0 with the cursor at column 5 moves
the offset to 1 and the column to 8, the next multiple of 4. -/
theorem c10_witness :
    c10state.currentLine[c10state.offset]? = some byteTab ∧
    c10state'.offset = c10state.offset + 1 ∧
    c10state'.column = 4 * (c10state.column / 4 + 1) := by
  refine ⟨by rfl, ?_, ?_⟩
  · exact ((c10_tab_and_indent c10state (by rfl) c10state' (by rfl)).1).1
  · exact ((c10_tab_and_indent c10state (by rfl) c10state' (by rfl)).1).2.2.1

/-! ## Claim C5: a header line after an open paragraph -/

/-- `findNextNonspace` only reads the line, the offset and the column, and
writes none of them, so running it twice equals running it once. -/
theorem findNextNonspace_idem (s : PState) :
    findNextNonspace (findNextNonspace s) = findNextNonspace s := rfl

/-- On a `Paragraph`, the hoisted-`lastChild` re-descent loop never ends
when the scan finds the current line non-blank:
`ParagraphBlockHandler.Continue` answers `Matched` without changing
anything the next iteration reads, so every fuel is exhausted — the Go
loop runs forever. -/
theorem descendBroken_paragraph_hangs :
    ∀ (fuel : Nat) (s : PState), (findNextNonspace s).blank = false →
      descendBroken .Paragraph fuel s = none := by
  intro fuel
  induction fuel with
  | zero => intro s _; rfl
  | succ n ih =>
    intro s h
    have hstep : descendBroken .Paragraph (n + 1) s
        = descendBroken .Paragraph n (findNextNonspace s) := by
      simp [descendBroken, blockContinue, h]
    rw [hstep]
    exact ih (findNextNonspace s) (by rw [findNextNonspace_idem]; exact h)

/-- The line `# Heading`, scanned from the start of the line, is not
blank: its first byte is `#`. -/
theorem heading_not_blank (s : PState) (hoff : s.offset = 0)
    (hline : s.currentLine = bytesOfString "# Heading") :
    (findNextNonspace s).blank = false := by
  simp [findNextNonspace, fnnsLoop, hoff, hline, bytesOfString, byteSpace,
    byteTab, byteNL, byteCR]

set_option maxHeartbeats 1600000 in
/-- The single line `para` parses into the state `c5state`: an open
Paragraph directly under the open Document root. -/
theorem c5_para_line :
    incorporateLine initialParser [112, 97, 114, 97] = some c5state := by rfl

set_option maxHeartbeats 1600000 in
/-- C5: the claim says that incorporating the line `# Heading` while the
tip is an open, non-blank Paragraph finalizes that Paragraph and opens a
Header as its sibling, and does not append the line as a continuation.
The code does not do this: `incorporateLine` hoists
`lastChild := container.lastChild` out of its re-descent loop and never
reassigns it, so when the root's last child is that open Paragraph,
`ParagraphBlockHandler.Continue` answers `Matched` on the same node forever
— consuming nothing — and the loop never exits: the program hangs, the
Paragraph is never finalized and no Header is ever opened.  First conjunct:
the loop body diverges for every fuel from any state about to read
`# Heading` afresh.  Second: `incorporateLine` therefore fails (`none`
models the hang) from every state whose tip is an open Paragraph directly
under the root.  Third: the two-line parse `para` + `# Heading` fails end
to end. -/
theorem c5_heading_line_hangs :
    (∀ (s : PState) (fuel : Nat), s.offset = 0 →
       s.currentLine = bytesOfString "# Heading" →
       descendBroken .Paragraph fuel s = none) ∧
    (∀ (s : PState) (dI : NodeInfo) (dKids : List BNode),
       s.tipInfo.typ = .Paragraph → s.tipInfo.openFlag = true →
       s.ancs = [(dI, dKids)] →
       incorporateLine s (bytesOfString "# Heading") = none) ∧
    Parser.parse (bytesOfString "para\n# Heading\n") = none := by
  refine ⟨?_, ?_, ?_⟩
  · intro s fuel hoff hline
    exact descendBroken_paragraph_hangs fuel s (heading_not_blank s hoff hline)
  · intro s dI dKids htyp hopen ha
    have hnone : descendBroken .Paragraph ((bytesOfString "# Heading").length + 2)
        { s with offset := 0, lineNumber := s.lineNumber + 1,
                 currentLine := bytesOfString "# Heading" } = none :=
      descendBroken_paragraph_hangs _ _ (heading_not_blank _ rfl rfl)
    rw [ha] at hnone
    simp [incorporateLine, descendLoop, docLastChild, chainInfos, ha, htyp,
      hopen, hnone]
  · have h2 : incorporateLine c5state [35, 32, 72, 101, 97, 100, 105, 110, 103]
        = none := by rfl
    simp [Parser.parse, splitNL, bytesOfString, byteNL, List.foldlM,
      c5_para_line, h2]

/-- Witness for C5: the concrete post-`para` state `c5state` satisfies the
hypotheses — its tip is an open Paragraph directly under the Document root
— and incorporating `# Heading` from it indeed fails, the modelled hang. -/
theorem c5_witness :
    incorporateLine c5state (bytesOfString "# Heading") = none :=
  c5_heading_line_hangs.2.1 c5state docInfo [] rfl rfl rfl

/-! ## Claim C8 infrastructure: chain segments -/



theorem chainB_eq_seg (a : Arena) (p : Nat) :
    ∀ (l : List Nat) (prv cur : Option Nat),
      chainB a p prv cur l = chainSeg a p prv cur l none := by
  intro l
  induction l with
  | nil => intro prv cur; rfl
  | cons x xs ih => intro prv cur; simp [chainB, chainSeg, ih]

theorem lastO_cons (x : Nat) (xs : List Nat) (prv : Option Nat) :
    lastO (x :: xs) prv = lastO xs (some x) := by
  cases h : xs.getLast? with
  | none =>
    have : xs = [] := by
      cases xs with
      | nil => rfl
      | cons y ys => simp [List.getLast?_cons_cons] at h  -- check
    subst this
    simp [lastO]
  | some w =>
    have h2 : (x :: xs).getLast? = some w := by
      cases xs with
      | nil => simp at h
      | cons y ys => rw [List.getLast?_cons_cons]; exact h
    simp [lastO, h, h2]

theorem chainSeg_append_iff (a : Arena) (p : Nat) :
    ∀ (xs ys : List Nat) (prv cur stop : Option Nat),
      chainSeg a p prv cur (xs ++ ys) stop = true ↔
      ∃ mid, chainSeg a p prv cur xs mid = true ∧
        chainSeg a p (lastO xs prv) mid ys stop = true := by
  intro xs
  induction xs with
  | nil =>
    intro ys prv cur stop
    constructor
    · intro h
      exact ⟨cur, by simp [chainSeg], by simpa [lastO] using h⟩
    · rintro ⟨mid, h1, h2⟩
      have : cur = mid := by simpa [chainSeg] using h1
      subst this
      simpa [lastO] using h2
  | cons x xs ih =>
    intro ys prv cur stop
    simp only [List.cons_append, chainSeg, Bool.and_eq_true, decide_eq_true_eq,
      List.append_eq]
    rw [ih]
    constructor
    · rintro ⟨⟨⟨h1, h2⟩, h3⟩, mid, h4, h5⟩
      refine ⟨mid, ⟨⟨⟨h1, h2⟩, h3⟩, h4⟩, ?_⟩
      rw [lastO_cons]
      exact h5
    · rintro ⟨mid, ⟨⟨⟨h1, h2⟩, h3⟩, h4⟩, h5⟩
      rw [lastO_cons] at h5
      exact ⟨⟨⟨h1, h2⟩, h3⟩, mid, h4, h5⟩

theorem chainSeg_congr_fields (a a' : Arena) (p : Nat) :
    ∀ (l : List Nat) (prv cur stop : Option Nat),
      (∀ x ∈ l, (a' x).parent = (a x).parent ∧ (a' x).prev = (a x).prev ∧
        (a' x).next = (a x).next) →
      chainSeg a' p prv cur l stop = chainSeg a p prv cur l stop := by
  intro l
  induction l with
  | nil => intro prv cur stop _; rfl
  | cons x xs ih =>
    intro prv cur stop h
    have hx := h x (List.mem_cons_self x xs)
    simp [chainSeg, hx.1, hx.2.1, hx.2.2,
      ih _ _ _ (fun y hy => h y (List.mem_cons_of_mem x hy))]

theorem getLast?_mem_of_eq {l : List Nat} {w : Nat}
    (h : l.getLast? = some w) : w ∈ l := by
  induction l with
  | nil => simp at h
  | cons x xs ih =>
    cases xs with
    | nil =>
      simp at h
      simp [h]
    | cons y ys =>
      rw [List.getLast?_cons_cons] at h
      exact List.mem_cons_of_mem x (ih h)

/-- Transport a segment to an arena that rewrites the head's `prev` pointer
to `prv'` and leaves every other field of the members unchanged. -/
theorem chainSeg_newPrev (a a' : Arena) (p : Nat) :
    ∀ (l : List Nat) (prv prv' cur stop : Option Nat),
      chainSeg a p prv cur l stop = true →
      (∀ x ∈ l, (a' x).parent = (a x).parent ∧ (a' x).next = (a x).next) →
      (∀ x, l.head? = some x → (a' x).prev = prv') →
      (∀ x ∈ l.tail, (a' x).prev = (a x).prev) →
      chainSeg a' p prv' cur l stop = true := by
  intro l
  induction l with
  | nil => intro prv prv' cur stop h _ _ _; simpa [chainSeg] using h
  | cons x xs ih =>
    intro prv prv' cur stop h hpn hhead htail
    simp only [chainSeg, Bool.and_eq_true, decide_eq_true_eq] at h ⊢
    obtain ⟨⟨⟨h1, h2⟩, h3⟩, h4⟩ := h
    have hx := hpn x (List.mem_cons_self x xs)
    refine ⟨⟨⟨h1, by rw [hx.1]; exact h2⟩, hhead x rfl⟩, ?_⟩
    rw [hx.2]
    cases xs with
    | nil => simpa [chainSeg] using h4
    | cons y ys =>
      have hyprev : (a' y).prev = (a y).prev := htail y (by simp)
      have hyorig : (a y).prev = some x := by
        simp only [chainSeg, Bool.and_eq_true, decide_eq_true_eq] at h4
        exact h4.1.2
      refine ih _ _ _ _ h4 ?_ ?_ ?_
      · intro z hz
        exact hpn z (List.mem_cons_of_mem x hz)
      · intro z hzh
        have hzy : y = z := by simpa using hzh
        subst hzy
        rw [hyprev, hyorig]
      · intro z hz
        exact htail z (List.mem_cons_of_mem y hz)

/-- Transport a non-empty duplicate-free segment to an arena that rewrites
the last member's `next` pointer to `stop'` and leaves every other field of
the members unchanged. -/
theorem chainSeg_newStop (a a' : Arena) (p : Nat) :
    ∀ (l : List Nat) (prv cur stop stop' : Option Nat),
      l ≠ [] → l.Nodup →
      chainSeg a p prv cur l stop = true →
      (∀ x ∈ l, (a' x).parent = (a x).parent ∧ (a' x).prev = (a x).prev) →
      (∀ x ∈ l, l.getLast? ≠ some x → (a' x).next = (a x).next) →
      (∀ x, l.getLast? = some x → (a' x).next = stop') →
      chainSeg a' p prv cur l stop' = true := by
  intro l
  induction l with
  | nil => intro prv cur stop stop' hne; exact absurd rfl hne
  | cons x xs ih =>
    intro prv cur stop stop' _ hnd h hpp hmid hlast
    simp only [chainSeg, Bool.and_eq_true, decide_eq_true_eq] at h ⊢
    obtain ⟨⟨⟨h1, h2⟩, h3⟩, h4⟩ := h
    have hx := hpp x (List.mem_cons_self x xs)
    cases xs with
    | nil =>
      have hnx : (a' x).next = stop' := hlast x (by simp)
      refine ⟨⟨⟨h1, by rw [hx.1]; exact h2⟩, by rw [hx.2]; exact h3⟩, ?_⟩
      rw [hnx]
      simp [chainSeg]
    | cons y ys =>
      have hgl : (x :: y :: ys).getLast? = (y :: ys).getLast? :=
        List.getLast?_cons_cons
      have hxnl : (x :: y :: ys).getLast? ≠ some x := by
        rw [hgl]
        intro hcon
        have hxm : x ∈ y :: ys := getLast?_mem_of_eq hcon
        have := List.Nodup.not_mem hnd
        exact this hxm
      have hnx : (a' x).next = (a x).next :=
        hmid x (List.mem_cons_self x (y :: ys)) hxnl
      refine ⟨⟨⟨h1, by rw [hx.1]; exact h2⟩, by rw [hx.2]; exact h3⟩, ?_⟩
      rw [hnx]
      refine ih _ _ _ _ (by simp) (List.Nodup.of_cons hnd) h4 ?_ ?_ ?_
      · intro z hz
        exact hpp z (List.mem_cons_of_mem x hz)
      · intro z hz hzl
        refine hmid z (List.mem_cons_of_mem x hz) ?_
        rw [hgl]
        exact hzl
      · intro z hz
        refine hlast z ?_
        rw [hgl]
        exact hz

/-- `Node.unlink` on a consistent child list: the node disappears from its
parent's list, the sibling/parent links around it are repaired, and the
node's own links are cleared. -/
theorem unlink_childList (a : Arena) (p n : Nat) (l1 l2 : List Nat)
    (hl : isChildList a p (l1 ++ n :: l2) = true)
    (hnd : (p :: (l1 ++ n :: l2)).Nodup) :
    isChildList (unlink a n) p (l1 ++ l2) = true ∧
    ((unlink a n) n).parent = none ∧ ((unlink a n) n).prev = none ∧
    ((unlink a n) n).next = none := by
  rw [List.nodup_cons] at hnd
  obtain ⟨hpL, hLnd⟩ := hnd
  have hpl1 : p ∉ l1 := fun h => hpL (List.mem_append_left _ h)
  have hpn : p ≠ n := fun h =>
    hpL (by rw [h]; exact List.mem_append_right _ (List.mem_cons_self _ _))
  have hpl2 : p ∉ l2 :=
    fun h => hpL (List.mem_append_right _ (List.mem_cons_of_mem _ h))
  have hl1nd : l1.Nodup := hLnd.of_append_left
  have hnl2nd : (n :: l2).Nodup := hLnd.of_append_right
  have hnl2 : n ∉ l2 := by
    rw [List.nodup_cons] at hnl2nd
    exact hnl2nd.1
  have hl2nd : l2.Nodup := by
    rw [List.nodup_cons] at hnl2nd
    exact hnl2nd.2
  have hdisj : ∀ x ∈ l1, x ∉ n :: l2 :=
    fun x hx => List.disjoint_of_nodup_append hLnd hx
  have hnl1 : n ∉ l1 := fun h => hdisj n h (List.mem_cons_self _ _)
  have hclear : ((unlink a n) n).parent = none ∧
      ((unlink a n) n).prev = none ∧ ((unlink a n) n).next = none := by
    refine ⟨?_, ?_, ?_⟩ <;> simp [unlink, setG]
  refine ⟨?_, hclear⟩
  simp only [isChildList, Bool.and_eq_true, decide_eq_true_eq] at hl
  obtain ⟨hchain, hlastC⟩ := hl
  rw [chainB_eq_seg, chainSeg_append_iff] at hchain
  obtain ⟨mid, hseg1, hseg2⟩ := hchain
  have hseg2' := hseg2
  simp only [chainSeg, Bool.and_eq_true, decide_eq_true_eq] at hseg2'
  obtain ⟨⟨⟨hmid, hnpar⟩, hnprev⟩, hrest⟩ := hseg2'
  subst hmid
  rcases List.eq_nil_or_concat l1 with hl1e | ⟨l1t, w, hl1e⟩
  · subst hl1e
    simp only [lastO, List.getLast?_nil] at hnprev
    cases l2 with
    | nil =>
      have hnn : (a n).next = none := by simpa [chainSeg] using hrest
      have hW : unlink a n =
          setG (setG (setG a p (fun g => { g with firstChild := none })) p
              (fun g => { g with lastChild := none })) n
            (fun g => { g with parent := none, next := none, prev := none }) := by
        simp [unlink, setG, hnprev, hnpar, hnn, hpn, Ne.symm hpn]
      simp [isChildList, chainB, hW, setG, hpn, Ne.symm hpn]
    | cons mh l2t =>
      have hrest' := hrest
      simp only [chainSeg, Bool.and_eq_true, decide_eq_true_eq] at hrest'
      obtain ⟨⟨⟨hnn, hmhpar⟩, hmhprev⟩, hrest2⟩ := hrest'
      have hpm : p ≠ mh := fun h => hpl2 (h ▸ List.mem_cons_self _ _)
      have hnm : n ≠ mh := fun h => hnl2 (h ▸ List.mem_cons_self _ _)
      have hW : unlink a n =
          setG (setG (setG a p (fun g => { g with firstChild := some mh })) mh
              (fun g => { g with prev := none })) n
            (fun g => { g with parent := none, next := none, prev := none }) := by
        simp [unlink, setG, hnprev, hnpar, hnn, hpn, Ne.symm hpn]
      have hF1 : ∀ x, x ≠ p → x ≠ mh → x ≠ n → unlink a n x = a x := by
        intro x h1 h2 h3
        rw [hW]
        simp [setG, h1, h2, h3]
      have hFmh : ((unlink a n) mh).parent = (a mh).parent ∧
          ((unlink a n) mh).next = (a mh).next ∧
          ((unlink a n) mh).prev = none := by
        rw [hW]
        simp [setG, Ne.symm hnm, Ne.symm hpm]
      have hFp : ((unlink a n) p).firstChild = some mh ∧
          ((unlink a n) p).lastChild = (a p).lastChild := by
        rw [hW]
        simp [setG, hpn, hpm]
      rw [hnn] at hrest
      have hchain' : chainSeg (unlink a n) p none (some mh) (mh :: l2t) none
          = true := by
        refine chainSeg_newPrev a (unlink a n) p _ _ _ _ _ hrest ?_ ?_ ?_
        · intro x hx
          rcases List.mem_cons.mp hx with hxe | hxm
          · subst hxe
            exact ⟨hFmh.1, hFmh.2.1⟩
          · have hxp : x ≠ p := fun h =>
              hpl2 (by rw [← h]; exact List.mem_cons_of_mem _ hxm)
            have hxn : x ≠ n := fun h =>
              hnl2 (by rw [← h]; exact List.mem_cons_of_mem _ hxm)
            have hxm2 : x ≠ mh := fun h => by
              rw [List.nodup_cons] at hl2nd
              exact hl2nd.1 (by rw [← h]; exact hxm)
            rw [hF1 x hxp hxm2 hxn]
            exact ⟨rfl, rfl⟩
        · intro x hxh
          have hxe : mh = x := by simpa using hxh
          subst hxe
          exact hFmh.2.2
        · intro x hxm
          simp only [List.tail_cons] at hxm
          have hxp : x ≠ p := fun h =>
            hpl2 (by rw [← h]; exact List.mem_cons_of_mem _ hxm)
          have hxn : x ≠ n := fun h =>
            hnl2 (by rw [← h]; exact List.mem_cons_of_mem _ hxm)
          have hxm2 : x ≠ mh := fun h => by
            rw [List.nodup_cons] at hl2nd
            exact hl2nd.1 (by rw [← h]; exact hxm)
          rw [hF1 x hxp hxm2 hxn]
      simp only [isChildList, List.nil_append, Bool.and_eq_true,
        decide_eq_true_eq]
      constructor
      · rw [chainB_eq_seg, hFp.1]
        exact hchain'
      · rw [hFp.2, hlastC]
        simp [List.getLast?_cons_cons]
  · rw [List.concat_eq_append] at hl1e
    subst hl1e
    have hlastw : (l1t ++ [w]).getLast? = some w := by simp
    simp only [lastO, hlastw] at hnprev
    have hwmem : w ∈ l1t ++ [w] := List.mem_append_right _ (List.mem_cons_self _ _)
    have hwp : w ≠ p := fun h => hpl1 (h ▸ hwmem)
    have hwn : w ≠ n := fun h => hnl1 (h ▸ hwmem)
    cases l2 with
    | nil =>
      have hnn : (a n).next = none := by simpa [chainSeg] using hrest
      have hW : unlink a n =
          setG (setG (setG a w (fun g => { g with next := none })) p
              (fun g => { g with lastChild := some w })) n
            (fun g => { g with parent := none, next := none, prev := none }) := by
        simp [unlink, setG, hnprev, hnpar, hnn, Ne.symm hwn, Ne.symm hpn]
      have hF1 : ∀ x, x ≠ p → x ≠ w → x ≠ n → unlink a n x = a x := by
        intro x h1 h2 h3
        rw [hW]
        simp [setG, h1, h2, h3]
      have hFw : ((unlink a n) w).parent = (a w).parent ∧
          ((unlink a n) w).prev = (a w).prev ∧
          ((unlink a n) w).next = none := by
        rw [hW]
        simp [setG, hwn, hwp]
      have hFp : ((unlink a n) p).firstChild = (a p).firstChild ∧
          ((unlink a n) p).lastChild = some w := by
        rw [hW]
        simp [setG, hpn, Ne.symm hwp]
      have hchain' : chainSeg (unlink a n) p none ((a p).firstChild)
          (l1t ++ [w]) none = true := by
        refine chainSeg_newStop a (unlink a n) p _ _ _ _ _ (by simp) hl1nd
          hseg1 ?_ ?_ ?_
        · intro x hx
          by_cases hxw : x = w
          · subst hxw
            exact ⟨hFw.1, hFw.2.1⟩
          · have hxp : x ≠ p := fun h => hpl1 (h ▸ hx)
            have hxn : x ≠ n := fun h => hnl1 (h ▸ hx)
            rw [hF1 x hxp hxw hxn]
            exact ⟨rfl, rfl⟩
        · intro x hx hxl
          have hxw : x ≠ w := fun h => hxl (by rw [h, hlastw])
          have hxp : x ≠ p := fun h => hpl1 (h ▸ hx)
          have hxn : x ≠ n := fun h => hnl1 (h ▸ hx)
          rw [hF1 x hxp hxw hxn]
        · intro x hx
          have hxe : w = x := by
            rw [hlastw] at hx
            simpa using hx
          subst hxe
          exact hFw.2.2
      simp only [isChildList, List.append_nil, Bool.and_eq_true,
        decide_eq_true_eq]
      constructor
      · rw [chainB_eq_seg, hFp.1]
        exact hchain'
      · rw [hFp.2, hlastw]
    | cons mh l2t =>
      have hrest' := hrest
      simp only [chainSeg, Bool.and_eq_true, decide_eq_true_eq] at hrest'
      obtain ⟨⟨⟨hnn, hmhpar⟩, hmhprev⟩, hrest2⟩ := hrest'
      have hpm : p ≠ mh := fun h => hpl2 (h ▸ List.mem_cons_self _ _)
      have hnm : n ≠ mh := fun h => hnl2 (h ▸ List.mem_cons_self _ _)
      have hwm : w ≠ mh := fun h =>
        hdisj w hwmem
          (by rw [h]; exact List.mem_cons_of_mem _ (List.mem_cons_self _ _))
      have hW : unlink a n =
          setG (setG (setG a w (fun g => { g with next := some mh })) mh
              (fun g => { g with prev := some w })) n
            (fun g => { g with parent := none, next := none, prev := none }) := by
        simp [unlink, setG, hnprev, hnpar, hnn, Ne.symm hwn, Ne.symm hpn]
      have hF1 : ∀ x, x ≠ w → x ≠ mh → x ≠ n → unlink a n x = a x := by
        intro x h1 h2 h3
        rw [hW]
        simp [setG, h1, h2, h3]
      have hFw : ((unlink a n) w).parent = (a w).parent ∧
          ((unlink a n) w).prev = (a w).prev ∧
          ((unlink a n) w).next = some mh := by
        rw [hW]
        simp [setG, hwn, hwm]
      have hFmh : ((unlink a n) mh).parent = (a mh).parent ∧
          ((unlink a n) mh).next = (a mh).next ∧
          ((unlink a n) mh).prev = some w := by
        rw [hW]
        simp [setG, Ne.symm hnm, Ne.symm hwm]
      have hFp : (unlink a n) p = a p := hF1 p (Ne.symm hwp) hpm hpn
      have hpart1 : chainSeg (unlink a n) p none ((a p).firstChild)
          (l1t ++ [w]) (some mh) = true := by
        refine chainSeg_newStop a (unlink a n) p _ _ _ _ _ (by simp) hl1nd
          hseg1 ?_ ?_ ?_
        · intro x hx
          by_cases hxw : x = w
          · subst hxw
            exact ⟨hFw.1, hFw.2.1⟩
          · have hxmh : x ≠ mh := fun h =>
              hdisj x hx
                (by rw [h]; exact List.mem_cons_of_mem _ (List.mem_cons_self _ _))
            have hxn : x ≠ n := fun h => hnl1 (h ▸ hx)
            rw [hF1 x hxw hxmh hxn]
            exact ⟨rfl, rfl⟩
        · intro x hx hxl
          have hxw : x ≠ w := fun h => hxl (by rw [h, hlastw])
          have hxmh : x ≠ mh := fun h =>
            hdisj x hx
              (by rw [h]; exact List.mem_cons_of_mem _ (List.mem_cons_self _ _))
          have hxn : x ≠ n := fun h => hnl1 (h ▸ hx)
          rw [hF1 x hxw hxmh hxn]
        · intro x hx
          have hxe : w = x := by
            rw [hlastw] at hx
            simpa using hx
          subst hxe
          exact hFw.2.2
      rw [hnn] at hrest
      have hpart2 : chainSeg (unlink a n) p (some w) (some mh) (mh :: l2t)
          none = true := by
        refine chainSeg_newPrev a (unlink a n) p _ _ _ _ _ hrest ?_ ?_ ?_
        · intro x hx
          rcases List.mem_cons.mp hx with hxe | hxm
          · subst hxe
            exact ⟨hFmh.1, hFmh.2.1⟩
          · have hxw : x ≠ w := fun h =>
              hdisj w hwmem
                (by rw [← h]
                    exact List.mem_cons_of_mem _ (List.mem_cons_of_mem _ hxm))
            have hxn : x ≠ n := fun h =>
              hnl2 (by rw [← h]; exact List.mem_cons_of_mem _ hxm)
            have hxm2 : x ≠ mh := fun h => by
              rw [List.nodup_cons] at hl2nd
              exact hl2nd.1 (by rw [← h]; exact hxm)
            rw [hF1 x hxw hxm2 hxn]
            exact ⟨rfl, rfl⟩
        · intro x hxh
          have hxe : mh = x := by simpa using hxh
          subst hxe
          exact hFmh.2.2
        · intro x hxm
          simp only [List.tail_cons] at hxm
          have hxw : x ≠ w := fun h =>
            hdisj w hwmem
              (by rw [← h]
                  exact List.mem_cons_of_mem _ (List.mem_cons_of_mem _ hxm))
          have hxn : x ≠ n := fun h =>
            hnl2 (by rw [← h]; exact List.mem_cons_of_mem _ hxm)
          have hxm2 : x ≠ mh := fun h => by
            rw [List.nodup_cons] at hl2nd
            exact hl2nd.1 (by rw [← h]; exact hxm)
          rw [hF1 x hxw hxm2 hxn]
      simp only [isChildList, Bool.and_eq_true, decide_eq_true_eq]
      constructor
      · rw [chainB_eq_seg, chainSeg_append_iff]
        refine ⟨some mh, ?_, ?_⟩
        · rw [hFp]
          exact hpart1
        · simp only [lastO, hlastw]
          exact hpart2
      · rw [hFp, hlastC]
        rw [List.getLast?_append_of_ne_nil (l1t ++ [w]) (by simp),
          List.getLast?_append_of_ne_nil (l1t ++ [w]) (by simp)]
        simp [List.getLast?_cons_cons]

/-- `unlink` clears the unlinked node's own links unconditionally. -/
theorem unlink_clears (a : Arena) (c : Nat) :
    ((unlink a c) c).parent = none ∧ ((unlink a c) c).prev = none ∧
    ((unlink a c) c).next = none := by
  refine ⟨?_, ?_, ?_⟩ <;> simp [unlink, setG]

/-- `unlink a c` writes only at `c` and at the nodes `c`'s `prev`, `next`
and `parent` pointers designate. -/
theorem unlink_untouched (a : Arena) (c x : Nat) (hx1 : x ≠ c)
    (hx2 : (a c).prev ≠ some x) (hx3 : (a c).next ≠ some x)
    (hx4 : (a c).parent ≠ some x) : unlink a c x = a x := by
  have hxc : ¬ (x = c) := hx1
  cases hprev : (a c).prev with
  | some pr =>
    have hxpr : ¬ (x = pr) := fun h => hx2 (by rw [hprev, h])
    have h1next : ((setG a pr fun g => { g with next := (a c).next }) c).next
        = (a c).next := by
      by_cases hcpr : c = pr <;> simp [setG, hcpr]
    have h1par : ((setG a pr fun g => { g with next := (a c).next }) c).parent
        = (a c).parent := by
      by_cases hcpr : c = pr <;> simp [setG, hcpr]
    have h1prev : ((setG a pr fun g => { g with next := (a c).next }) c).prev
        = (a c).prev := by
      by_cases hcpr : c = pr <;> simp [setG, hcpr]
    simp only [unlink, hprev, h1next, h1par, h1prev]
    cases hnext : (a c).next with
    | some nx =>
      have hxnx : ¬ (x = nx) := fun h => hx3 (by rw [hnext, h])
      simp [setG, hnext, hxc, hxpr, hxnx]
    | none =>
      cases hpar : (a c).parent with
      | some q =>
        have hxq : ¬ (x = q) := fun h => hx4 (by rw [hpar, h])
        simp [setG, hnext, hpar, hxc, hxpr, hxq]
      | none => simp [setG, hnext, hpar, hxc, hxpr]
  | none =>
    cases hpar : (a c).parent with
    | some q =>
      have hxq : ¬ (x = q) := fun h => hx4 (by rw [hpar, h])
      have h1next : ((setG a q fun g => { g with firstChild := (a c).next }) c).next
          = (a c).next := by
        by_cases hcq : c = q <;> simp [setG, hcq]
      have h1par : ((setG a q fun g => { g with firstChild := (a c).next }) c).parent
          = (a c).parent := by
        by_cases hcq : c = q <;> simp [setG, hcq]
      have h1prev : ((setG a q fun g => { g with firstChild := (a c).next }) c).prev
          = (a c).prev := by
        by_cases hcq : c = q <;> simp [setG, hcq]
      simp only [unlink, hprev, hpar, h1next, h1par, h1prev]
      cases hnext : (a c).next with
      | some nx =>
        have hxnx : ¬ (x = nx) := fun h => hx3 (by rw [hnext, h])
        simp [setG, hnext, hxc, hxq, hxnx]
      | none => simp [setG, hnext, hpar, hxc, hxq]
    | none =>
      simp only [unlink, hprev, hpar]
      cases hnext : (a c).next with
      | some nx =>
        have hxnx : ¬ (x = nx) := fun h => hx3 (by rw [hnext, h])
        simp [setG, hnext, hxc, hxnx]
      | none => simp [setG, hnext, hpar, hxc]

/-- `isChildList` only reads the members' records and the parent's two
child pointers. -/
theorem isChildList_congr (a a' : Arena) (p : Nat) (l : List Nat)
    (hm : ∀ x ∈ l, a' x = a x) (hp : a' p = a p) :
    isChildList a' p l = isChildList a p l := by
  simp only [isChildList, hp, chainB_eq_seg]
  rw [chainSeg_congr_fields a a' p l _ _ _
    (fun x hx => by rw [hm x hx]; exact ⟨rfl, rfl, rfl⟩)]

/-- The relink phase of `appendChild`: starting from the arena `b` left by
the unlink, with `c`'s links cleared and `p`'s child list `m`, the child
ends up as `p`'s new last child; beyond the unlink, only `p`, `c` and the
former last child are written. -/
theorem relink_spec (a b : Arena) (p c : Nat) (m : List Nat)
    (hb : unlink a c = b)
    (hbp : isChildList b p m = true)
    (hbc : (b c).parent = none ∧ (b c).prev = none ∧ (b c).next = none)
    (hnd : (p :: c :: m).Nodup) :
    isChildList (appendChild a p c) p (m ++ [c]) = true ∧
    ((appendChild a p c) c).parent = some p ∧
    ((appendChild a p c) c).next = none ∧
    (∀ x, x ≠ p → x ≠ c → m.getLast? ≠ some x →
      appendChild a p c x = b x) := by
  rw [List.nodup_cons] at hnd
  obtain ⟨hpcm, hnd⟩ := hnd
  rw [List.nodup_cons] at hnd
  obtain ⟨hcm, hmnd⟩ := hnd
  have hpc : p ≠ c := fun h => hpcm (h ▸ List.mem_cons_self _ _)
  have hpm : p ∉ m := fun h => hpcm (List.mem_cons_of_mem _ h)
  simp only [isChildList, Bool.and_eq_true, decide_eq_true_eq] at hbp
  obtain ⟨hbchain, hblast⟩ := hbp
  rw [chainB_eq_seg] at hbchain
  have hplast : ((setG b c fun g => { g with parent := some p }) p).lastChild
      = m.getLast? := by
    rw [← hblast]
    simp [setG, hpc]
  rcases List.eq_nil_or_concat m with hme | ⟨mt, lc, hme⟩
  · subst hme
    have hW : appendChild a p c =
        setG (setG (setG b c (fun g => { g with parent := some p })) p
            (fun g => { g with firstChild := some c })) p
          (fun g => { g with lastChild := some c }) := by
      simp only [appendChild, hb, hplast, List.getLast?_nil]
    refine ⟨?_, ?_, ?_, ?_⟩
    · simp [isChildList, chainB, hW, setG, hpc, Ne.symm hpc, hbc.2.1, hbc.2.2]
    · rw [hW]
      simp [setG, Ne.symm hpc]
    · rw [hW]
      simp [setG, Ne.symm hpc, hbc.2.2]
    · intro x hxp hxc _
      rw [hW]
      simp [setG, hxp, hxc]
  · rw [List.concat_eq_append] at hme
    subst hme
    have hlastm : (mt ++ [lc]).getLast? = some lc := by simp
    have hlcm : lc ∈ mt ++ [lc] :=
      List.mem_append_right _ (List.mem_cons_self _ _)
    have hplc : p ≠ lc := fun h => hpm (h ▸ hlcm)
    have hclc : c ≠ lc := fun h => hcm (h ▸ hlcm)
    have hW : appendChild a p c =
        setG (setG (setG (setG b c (fun g => { g with parent := some p })) lc
            (fun g => { g with next := some c })) c
            (fun g => { g with prev := some lc })) p
          (fun g => { g with lastChild := some c }) := by
      simp only [appendChild, hb, hplast, hlastm]
    have hF1 : ∀ x, x ≠ p → x ≠ c → x ≠ lc → appendChild a p c x = b x := by
      intro x h1 h2 h3
      rw [hW]
      simp [setG, h1, h2, h3]
    have hFc : ((appendChild a p c) c).parent = some p ∧
        ((appendChild a p c) c).prev = some lc ∧
        ((appendChild a p c) c).next = (b c).next := by
      rw [hW]
      simp [setG, Ne.symm hpc, hclc]
    have hFlc : ((appendChild a p c) lc).parent = (b lc).parent ∧
        ((appendChild a p c) lc).prev = (b lc).prev ∧
        ((appendChild a p c) lc).next = some c := by
      rw [hW]
      simp [setG, Ne.symm hplc, Ne.symm hclc]
    have hFp : ((appendChild a p c) p).firstChild = (b p).firstChild ∧
        ((appendChild a p c) p).lastChild = some c := by
      rw [hW]
      simp [setG, hpc, hplc]
    refine ⟨?_, hFc.1, by rw [hFc.2.2]; exact hbc.2.2, ?_⟩
    · simp only [isChildList, Bool.and_eq_true, decide_eq_true_eq]
      constructor
      · rw [chainB_eq_seg, chainSeg_append_iff, hFp.1]
        refine ⟨some c, ?_, ?_⟩
        · refine chainSeg_newStop b (appendChild a p c) p _ _ _ _ _
            (by simp) hmnd hbchain ?_ ?_ ?_
          · intro x hx
            by_cases hxlc : x = lc
            · subst hxlc
              exact ⟨hFlc.1, hFlc.2.1⟩
            · have hxp : x ≠ p := fun h => hpm (h ▸ hx)
              have hxc : x ≠ c := fun h => hcm (h ▸ hx)
              rw [hF1 x hxp hxc hxlc]
              exact ⟨rfl, rfl⟩
          · intro x hx hxl
            have hxlc : x ≠ lc := fun h => hxl (by rw [h, hlastm])
            have hxp : x ≠ p := fun h => hpm (h ▸ hx)
            have hxc : x ≠ c := fun h => hcm (h ▸ hx)
            rw [hF1 x hxp hxc hxlc]
          · intro x hx
            have hxe : lc = x := by
              rw [hlastm] at hx
              simpa using hx
            subst hxe
            exact hFlc.2.2
        · simp only [lastO, hlastm, chainSeg, Bool.and_eq_true,
            decide_eq_true_eq]
          refine ⟨⟨⟨trivial, ?_⟩, hFc.2.1⟩, ?_⟩
          · rw [hFc.1]
          · rw [hFc.2.2, hbc.2.2]
      · rw [hFp.2]
        simp
    · intro x hxp hxc hxl
      have hxlc : x ≠ lc := fun h => hxl (by rw [h, hlastm])
      exact hF1 x hxp hxc hxlc

/-- The position pointer of a true segment is the stop or designates a
member. -/
theorem chainSeg_cur_cases (a : Arena) (p : Nat) (l : List Nat)
    (prv cur stop : Option Nat) (h : chainSeg a p prv cur l stop = true) :
    cur = stop ∨ ∃ y ∈ l, cur = some y := by
  cases l with
  | nil => exact Or.inl (by simpa [chainSeg] using h)
  | cons y ys =>
    simp only [chainSeg, Bool.and_eq_true, decide_eq_true_eq] at h
    exact Or.inr ⟨y, List.mem_cons_self _ _, h.1.1.1⟩

/-- `lastO` is the entry pointer or designates a member. -/
theorem lastO_cases (l : List Nat) (prv : Option Nat) :
    lastO l prv = prv ∨ ∃ w ∈ l, lastO l prv = some w := by
  cases hgl : l.getLast? with
  | none => exact Or.inl (by simp [lastO, hgl])
  | some w =>
    exact Or.inr ⟨w, getLast?_mem_of_eq hgl, by simp [lastO, hgl]⟩

/-- `Node.appendChild` when the child sits in another parent's list: the
child leaves `q`'s list (which is repaired around it) and becomes `p`'s new
last child. -/
theorem appendChild_listed (a : Arena) (p q c : Nat) (l1 l2 m : List Nat)
    (hq : isChildList a q (l1 ++ c :: l2) = true)
    (hp : isChildList a p m = true)
    (hnd : (p :: q :: ((l1 ++ c :: l2) ++ m)).Nodup) :
    isChildList (appendChild a p c) q (l1 ++ l2) = true ∧
    isChildList (appendChild a p c) p (m ++ [c]) = true ∧
    ((appendChild a p c) c).parent = some p ∧
    ((appendChild a p c) c).next = none := by
  rw [List.nodup_cons] at hnd
  obtain ⟨hpQLm, hnd⟩ := hnd
  rw [List.nodup_cons] at hnd
  obtain ⟨hqLm, hLmnd⟩ := hnd
  have hLnd : (l1 ++ c :: l2).Nodup := hLmnd.of_append_left
  have hmnd : m.Nodup := hLmnd.of_append_right
  have hLm : ∀ x ∈ l1 ++ c :: l2, x ∉ m :=
    fun x hx => List.disjoint_of_nodup_append hLmnd hx
  have hcmem : c ∈ l1 ++ c :: l2 :=
    List.mem_append_right _ (List.mem_cons_self _ _)
  have hpq : p ≠ q := fun h => hpQLm (h ▸ List.mem_cons_self _ _)
  have hpL : p ∉ l1 ++ c :: l2 := fun h =>
    hpQLm (List.mem_cons_of_mem _ (List.mem_append_left _ h))
  have hpm : p ∉ m := fun h =>
    hpQLm (List.mem_cons_of_mem _ (List.mem_append_right _ h))
  have hqL : q ∉ l1 ++ c :: l2 := fun h => hqLm (List.mem_append_left _ h)
  have hqm : q ∉ m := fun h => hqLm (List.mem_append_right _ h)
  have hpc : p ≠ c := fun h => hpL (h ▸ hcmem)
  have hqc : q ≠ c := fun h => hqL (h ▸ hcmem)
  have hcm : c ∉ m := hLm c hcmem
  have hqLnd : (q :: (l1 ++ c :: l2)).Nodup :=
    List.nodup_cons.mpr ⟨hqL, hLnd⟩
  obtain ⟨hbq, hbc⟩ := unlink_childList a q c l1 l2 hq hqLnd
  -- pointer facts about `c` under `a`, for the write footprint of unlink
  have hq' := hq
  simp only [isChildList, Bool.and_eq_true, decide_eq_true_eq] at hq'
  obtain ⟨hqchain, _⟩ := hq'
  rw [chainB_eq_seg, chainSeg_append_iff] at hqchain
  obtain ⟨mid, _, hseg2⟩ := hqchain
  simp only [chainSeg, Bool.and_eq_true, decide_eq_true_eq] at hseg2
  obtain ⟨⟨⟨_, hcpar⟩, hcprev⟩, hcrest⟩ := hseg2
  have huntouched : ∀ x, x = p ∨ x ∈ m → unlink a c x = a x := by
    intro x hx
    have hxL : x ∉ l1 ++ c :: l2 := by
      rcases hx with hxp | hxm
      · subst hxp
        exact hpL
      · intro hxin
        exact hLm x hxin hxm
    have hxc : x ≠ c := fun h => hxL (h ▸ hcmem)
    refine unlink_untouched a c x hxc ?_ ?_ ?_
    · rw [hcprev]
      rcases lastO_cases l1 none with hl | ⟨w, hw, hl⟩
      · rw [hl]
        simp
      · rw [hl]
        intro hcon
        have hwx : w = x := by simpa using hcon
        exact hxL (hwx ▸ List.mem_append_left _ hw)
    · rcases chainSeg_cur_cases a q l2 _ _ _ hcrest with hl | ⟨y, hy, hl⟩
      · rw [hl]
        simp
      · rw [hl]
        intro hcon
        have hyx : y = x := by simpa using hcon
        exact hxL (hyx ▸ List.mem_append_right _ (List.mem_cons_of_mem _ hy))
    · rw [hcpar]
      intro hcon
      have hqx : q = x := by simpa using hcon
      rcases hx with hxp | hxm
      · exact hpq (hxp ▸ hqx.symm)
      · exact hqm (hqx ▸ hxm)
  have hbp : isChildList (unlink a c) p m = true := by
    rw [isChildList_congr a (unlink a c) p m
      (fun x hx => huntouched x (Or.inr hx)) (huntouched p (Or.inl rfl))]
    exact hp
  have hpcm : (p :: c :: m).Nodup := by
    rw [List.nodup_cons, List.nodup_cons]
    exact ⟨fun h => (List.mem_cons.mp h).elim hpc (fun h2 => hpm h2),
      hcm, hmnd⟩
  obtain ⟨hr1, hr2, hr3, hfoot⟩ :=
    relink_spec a (unlink a c) p c m rfl hbp hbc hpcm
  refine ⟨?_, hr1, hr2, hr3⟩
  have hfoot' : ∀ x, x = q ∨ x ∈ l1 ++ l2 → appendChild a p c x = unlink a c x := by
    intro x hx
    have hxL : x ∈ q :: (l1 ++ c :: l2) := by
      rcases hx with hxq | hxm
      · subst hxq
        exact List.mem_cons_self _ _
      · rcases List.mem_append.mp hxm with h1 | h2
        · exact List.mem_cons_of_mem _ (List.mem_append_left _ h1)
        · exact List.mem_cons_of_mem _
            (List.mem_append_right _ (List.mem_cons_of_mem _ h2))
    have hxp : x ≠ p := by
      rcases hx with hxq | hxm
      · subst hxq
        exact Ne.symm hpq
      · intro h
        rcases List.mem_append.mp hxm with h1 | h2
        · exact hpL (h ▸ List.mem_append_left _ h1)
        · exact hpL (h ▸ List.mem_append_right _ (List.mem_cons_of_mem _ h2))
    have hxc : x ≠ c := by
      rcases hx with hxq | hxm
      · subst hxq
        exact hqc
      · intro h
        subst h
        rcases List.mem_append.mp hxm with h1 | h2
        · rcases List.nodup_append.mp hLnd with ⟨_, hcnd, hdj⟩
          exact hdj h1 (List.mem_cons_self _ _)
        · rw [List.nodup_append] at hLnd
          rw [List.nodup_cons] at hLnd
          exact hLnd.2.1.1 h2
    refine hfoot x hxp hxc ?_
    intro hcon
    have hxm2 : x ∈ m := getLast?_mem_of_eq hcon
    rcases hx with hxq | hxm
    · exact hqm (hxq ▸ hxm2)
    · rcases List.mem_append.mp hxm with h1 | h2
      · exact hLm x (List.mem_append_left _ h1) hxm2
      · exact hLm x (List.mem_append_right _ (List.mem_cons_of_mem _ h2)) hxm2
  rw [isChildList_congr (unlink a c) (appendChild a p c) q (l1 ++ l2)
    (fun x hx => hfoot' x (Or.inr hx)) (hfoot' q (Or.inl rfl))]
  exact hbq

/-- `Node.appendChild` on a detached child: it becomes `p`'s new last
child. -/
theorem appendChild_detached (a : Arena) (p c : Nat) (m : List Nat)
    (h1 : (a c).parent = none) (h2 : (a c).prev = none)
    (h3 : (a c).next = none)
    (hp : isChildList a p m = true) (hnd : (p :: c :: m).Nodup) :
    isChildList (appendChild a p c) p (m ++ [c]) = true ∧
    ((appendChild a p c) c).parent = some p ∧
    ((appendChild a p c) c).next = none := by
  have hbx : ∀ x, x ≠ c → unlink a c x = a x := fun x hx =>
    unlink_untouched a c x hx (by rw [h2]; simp) (by rw [h3]; simp)
      (by rw [h1]; simp)
  have hndc := hnd
  rw [List.nodup_cons] at hndc
  obtain ⟨hpcm, hndc⟩ := hndc
  rw [List.nodup_cons] at hndc
  obtain ⟨hcm, _⟩ := hndc
  have hpc : p ≠ c := fun h => hpcm (h ▸ List.mem_cons_self _ _)
  have hbp : isChildList (unlink a c) p m = true := by
    rw [isChildList_congr a (unlink a c) p m
      (fun x hx => hbx x (fun h => hcm (h ▸ hx))) (hbx p hpc)]
    exact hp
  obtain ⟨hr1, hr2, hr3, _⟩ :=
    relink_spec a (unlink a c) p c m rfl hbp (unlink_clears a c) hnd
  exact ⟨hr1, hr2, hr3⟩


/-- C8: `unlink` removes a node from its parent's child list, repairing
the sibling/parent links around it and clearing the node's own links; and
`appendChild` first detaches the child from any prior location — from
another parent's child list, which is repaired around it, or from no list
at all — and then links it as the new last child of the target parent, with
`parent` set and `next` nil.  Stated over consistent child lists of
pairwise-distinct nodes, as produced by the tree builder. -/
theorem c8_unlink_appendChild :
    (∀ (a : Arena) (p n : Nat) (l1 l2 : List Nat),
      isChildList a p (l1 ++ n :: l2) = true →
      (p :: (l1 ++ n :: l2)).Nodup →
      isChildList (unlink a n) p (l1 ++ l2) = true ∧
      ((unlink a n) n).parent = none ∧ ((unlink a n) n).prev = none ∧
      ((unlink a n) n).next = none) ∧
    (∀ (a : Arena) (p q c : Nat) (l1 l2 m : List Nat),
      isChildList a q (l1 ++ c :: l2) = true →
      isChildList a p m = true →
      (p :: q :: ((l1 ++ c :: l2) ++ m)).Nodup →
      isChildList (appendChild a p c) q (l1 ++ l2) = true ∧
      isChildList (appendChild a p c) p (m ++ [c]) = true ∧
      ((appendChild a p c) c).parent = some p ∧
      ((appendChild a p c) c).next = none) ∧
    (∀ (a : Arena) (p c : Nat) (m : List Nat),
      (a c).parent = none → (a c).prev = none → (a c).next = none →
      isChildList a p m = true →
      (p :: c :: m).Nodup →
      isChildList (appendChild a p c) p (m ++ [c]) = true ∧
      ((appendChild a p c) c).parent = some p ∧
      ((appendChild a p c) c).next = none) :=
  ⟨unlink_childList, appendChild_listed, appendChild_detached⟩

/-- Witness for C8 on the concrete arena: moving node 5 out of node 3's
list `[4, 5, 6]` and appending it to node 0's list `[1, 2]` leaves 3 with
`[4, 6]` and 0 with `[1, 2, 5]`. -/
theorem c8_witness :
    isChildList (appendChild c8arena 0 5) 3 ([4] ++ [6]) = true ∧
    isChildList (appendChild c8arena 0 5) 0 ([1, 2] ++ [5]) = true ∧
    ((appendChild c8arena 0 5) 5).parent = some 0 ∧
    ((appendChild c8arena 0 5) 5).next = none :=
  c8_unlink_appendChild.2.1 c8arena 0 3 5 [4] [6] [1, 2] (by decide)
    (by decide) (by decide)

/-! ## Claim C7: the walker's traversal order -/

theorem visitFull_cons (t : BNode) :
    visitFull t = (t, true) :: (visitFull t).drop 1 := by
  cases t with
  | mk i kids =>
    by_cases hc : (BNode.mk i kids).isContainer <;> simp [visitFull, hc]

mutual
theorem visitFull_length : ∀ t : BNode, (visitFull t).length = innerSteps t + 1
  | .mk i kids => by
    by_cases hc : (BNode.mk i kids).isContainer <;>
      simp [visitFull, innerSteps, hc, visitFullL_length kids]
theorem visitFullL_length : ∀ l : List BNode, (visitFullL l).length = innerStepsL l
  | [] => by simp [visitFullL, innerStepsL]
  | t :: ts => by
    simp only [visitFullL, List.length_append, innerStepsL,
      visitFull_length t, visitFullL_length ts]
end

theorem runEmits_add (m n : Nat) :
    ∀ (w w' w'' : NodeWalker) (evs evs' : List (BNode × Bool)),
      runEmits m w = some (evs, w') → runEmits n w' = some (evs', w'') →
      runEmits (m + n) w = some (evs ++ evs', w'') := by
  induction m with
  | zero =>
    intro w w' w'' evs evs' h1 h2
    have h0 : runEmits 0 w = some ([], w) := rfl
    rw [h0] at h1
    have h1' := Option.some.inj h1
    rw [Prod.mk.injEq] at h1'
    obtain ⟨he, hw⟩ := h1'
    subst he
    subst hw
    simpa using h2
  | succ m ih =>
    intro w w' w'' evs evs' h1 h2
    rw [Nat.succ_add]
    simp only [runEmits] at h1 ⊢
    cases hnw : NodeWalker.next w with
    | mk o w1 =>
      rw [hnw] at h1
      cases o with
      | none => simp at h1
      | some e =>
        dsimp only at h1 ⊢
        cases hr : runEmits m w1 with
        | none => rw [hr] at h1; simp at h1
        | some pr =>
          rw [hr] at h1
          obtain ⟨evs0, wmid⟩ := pr
          dsimp only at h1
          have h1' := Option.some.inj h1
          rw [Prod.mk.injEq] at h1'
          obtain ⟨he, hw⟩ := h1'
          subst hw
          rw [ih w1 wmid w'' evs0 evs' hr h2]
          dsimp only
          rw [← he]
          simp

theorem runEmits_walkerRun (n : Nat) :
    ∀ (w w' : NodeWalker) (evs : List (BNode × Bool)),
      runEmits n w = some (evs, w') →
      ∀ k, walkerRun (n + k) w = evs ++ walkerRun k w' := by
  induction n with
  | zero =>
    intro w w' evs h k
    have h0 : runEmits 0 w = some ([], w) := rfl
    rw [h0] at h
    have h' := Option.some.inj h
    rw [Prod.mk.injEq] at h'
    obtain ⟨he, hw⟩ := h'
    subst he
    subst hw
    simp
  | succ n ih =>
    intro w w' evs h k
    rw [Nat.succ_add]
    simp only [runEmits] at h
    simp only [walkerRun]
    cases hnw : NodeWalker.next w with
    | mk o w1 =>
      rw [hnw] at h
      cases o with
      | none => simp at h
      | some e =>
        dsimp only at h ⊢
        cases hr : runEmits n w1 with
        | none => rw [hr] at h; simp at h
        | some pr =>
          rw [hr] at h
          obtain ⟨evs0, wmid⟩ := pr
          dsimp only at h
          have h' := Option.some.inj h
          rw [Prod.mk.injEq] at h'
          obtain ⟨he, hw⟩ := h'
          subst hw
          rw [ih w1 wmid evs0 hr k, ← he]
          simp

theorem walkerRun_stop (w : NodeWalker) (h : (NodeWalker.next w).1 = none) :
    ∀ k, walkerRun k w = [] := by
  intro k
  cases k with
  | zero => rfl
  | succ k =>
    simp only [walkerRun]
    cases hnw : NodeWalker.next w with
    | mk o w1 =>
      rw [hnw] at h
      dsimp only at h ⊢
      subst h
      rfl

theorem next_start (t : BNode) :
    NodeWalker.next (NewNodeWalker t)
      = (some (t, true),
         { current := some ⟨t, []⟩, rootSet := true, entering := true }) := by
  simp [NodeWalker.next, NewNodeWalker]

theorem next_descend (i : NodeInfo) (c : BNode) (cs : List BNode)
    (path : List WFrame) (hc : (BNode.mk i (c :: cs)).isContainer = true) :
    NodeWalker.next { current := some ⟨BNode.mk i (c :: cs), path⟩,
                      rootSet := true, entering := true }
      = (some (c, true),
         { current := some ⟨c, ⟨i, [], cs⟩ :: path⟩, rootSet := true,
           entering := true }) := by
  simp [NodeWalker.next, WLoc.firstChildLoc, hc]

theorem next_childless (i : NodeInfo) (fr : WFrame) (path : List WFrame)
    (hc : (BNode.mk i []).isContainer = true) :
    NodeWalker.next { current := some ⟨BNode.mk i [], fr :: path⟩,
                      rootSet := true, entering := true }
      = (some (BNode.mk i [], false),
         { current := some ⟨BNode.mk i [], fr :: path⟩, rootSet := true,
           entering := false }) := by
  simp [NodeWalker.next, WLoc.firstChildLoc, WLoc.nextSiblingLoc,
    WLoc.parentLoc, hc]

theorem next_sibling (e : Bool) (f : BNode) (pI : NodeInfo)
    (lrev : List BNode) (r : BNode) (rs : List BNode) (path : List WFrame)
    (he : (e && f.isContainer) = false) :
    NodeWalker.next { current := some ⟨f, ⟨pI, lrev, r :: rs⟩ :: path⟩,
                      rootSet := true, entering := e }
      = (some (r, true),
         { current := some ⟨r, ⟨pI, f :: lrev, rs⟩ :: path⟩, rootSet := true,
           entering := true }) := by
  simp [NodeWalker.next, WLoc.nextSiblingLoc, he]

theorem next_up_emit (e : Bool) (f : BNode) (pI : NodeInfo)
    (lrev : List BNode) (fr2 : WFrame) (path : List WFrame)
    (he : (e && f.isContainer) = false) :
    NodeWalker.next { current := some ⟨f, ⟨pI, lrev, []⟩ :: fr2 :: path⟩,
                      rootSet := true, entering := e }
      = (some (BNode.mk pI (lrev.reverse ++ f :: []), false),
         { current := some ⟨BNode.mk pI (lrev.reverse ++ f :: []),
             fr2 :: path⟩,
           rootSet := true, entering := false }) := by
  simp [NodeWalker.next, WLoc.nextSiblingLoc, WLoc.parentLoc, he]

theorem next_up_stop (e : Bool) (f : BNode) (pI : NodeInfo)
    (lrev : List BNode) (he : (e && f.isContainer) = false) :
    (NodeWalker.next { current := some ⟨f, [⟨pI, lrev, []⟩]⟩,
                       rootSet := true, entering := e }).1 = none := by
  simp [NodeWalker.next, WLoc.nextSiblingLoc, WLoc.parentLoc, he]

theorem next_root_leaf (t : BNode) (e : Bool)
    (he : (e && t.isContainer) = false) :
    (NodeWalker.next { current := some ⟨t, []⟩, rootSet := true,
                       entering := e }).1 = none := by
  simp [NodeWalker.next, WLoc.nextSiblingLoc, WLoc.parentLoc, he]

theorem next_root_childless (i : NodeInfo)
    (hc : (BNode.mk i []).isContainer = true) :
    (NodeWalker.next { current := some ⟨BNode.mk i [], []⟩, rootSet := true,
                       entering := true }).1 = none := by
  simp [NodeWalker.next, WLoc.firstChildLoc, WLoc.nextSiblingLoc,
    WLoc.parentLoc, hc]

/-- Walking a sibling block: from the arrival at the first listed child,
the walker finishes every sibling in order and ends on the last one,
finished, with all elder siblings stacked in the frame. -/
theorem walkChildren :
    ∀ (rest : List BNode) (c : BNode) (pI : NodeInfo) (lrev : List BNode)
      (path : List WFrame),
      (∀ r ∈ c :: rest, ∀ (q : List WFrame), q ≠ [] →
        runEmits (innerSteps r)
          { current := some ⟨r, q⟩, rootSet := true, entering := true }
          = some ((visitFull r).drop 1,
              { current := some ⟨r, q⟩, rootSet := true,
                entering := finEntering r })) →
      ∃ (f' : BNode) (lrev' : List BNode),
        runEmits (innerSteps c + innerStepsL rest)
          { current := some ⟨c, ⟨pI, lrev, rest⟩ :: path⟩, rootSet := true,
            entering := true }
          = some ((visitFull c).drop 1 ++ visitFullL rest,
              { current := some ⟨f', ⟨pI, lrev', []⟩ :: path⟩,
                rootSet := true, entering := finEntering f' }) ∧
        lrev'.reverse ++ [f'] = lrev.reverse ++ c :: rest := by
  intro rest
  induction rest with
  | nil =>
    intro c pI lrev path hsub
    refine ⟨c, lrev, ?_, rfl⟩
    have h := hsub c (List.mem_cons_self _ _) (⟨pI, lrev, []⟩ :: path)
      (by simp)
    simpa [innerStepsL, visitFullL] using h
  | cons r rs ih =>
    intro c pI lrev path hsub
    have hstep1 := hsub c (List.mem_cons_self _ _) (⟨pI, lrev, r :: rs⟩ :: path)
      (by simp)
    have hmove : runEmits 1
        { current := some ⟨c, ⟨pI, lrev, r :: rs⟩ :: path⟩, rootSet := true,
          entering := finEntering c }
        = some ([(r, true)],
            { current := some ⟨r, ⟨pI, c :: lrev, rs⟩ :: path⟩,
              rootSet := true, entering := true }) := by
      have hn := next_sibling (finEntering c) c pI lrev r rs path
        (by simp [finEntering])
      simp [runEmits, hn]
    obtain ⟨f', lrev', hrun, hlist⟩ := ih r pI (c :: lrev) path
      (fun x hx => hsub x (List.mem_cons_of_mem _ hx))
    refine ⟨f', lrev', ?_, ?_⟩
    · have hcomp1 := runEmits_add (innerSteps c) 1 _ _ _ _ _ hstep1 hmove
      have hcomp2 := runEmits_add (innerSteps c + 1)
        (innerSteps r + innerStepsL rs) _ _ _ _ _ hcomp1 hrun
      have harith : innerSteps c + innerStepsL (r :: rs)
          = innerSteps c + 1 + (innerSteps r + innerStepsL rs) := by
        simp [innerStepsL]
        omega
      have hev : (visitFull c).drop 1 ++ visitFullL (r :: rs)
          = ((visitFull c).drop 1 ++ [(r, true)])
              ++ ((visitFull r).drop 1 ++ visitFullL rs) := by
        conv_lhs => rw [visitFullL, visitFull_cons r]
        simp
      rw [harith, hev]
      exact hcomp2
    · rw [hlist]
      simp

/-- Walking one subtree below the root: from the arrival at a node, the
walker emits exactly the rest of the node's full visit and ends on the
node, finished. -/
theorem walkSubtree : ∀ (N : Nat) (t : BNode), sizeOf t ≤ N →
    ∀ (path : List WFrame), path ≠ [] →
      runEmits (innerSteps t)
        { current := some ⟨t, path⟩, rootSet := true, entering := true }
        = some ((visitFull t).drop 1,
            { current := some ⟨t, path⟩, rootSet := true,
              entering := finEntering t }) := by
  intro N
  induction N with
  | zero =>
    intro t hle
    exfalso
    cases t with
    | mk i kids =>
      simp at hle
  | succ N ih =>
    intro t hle path hpath
    obtain ⟨fr, path', rfl⟩ : ∃ fr path', path = fr :: path' := by
      cases path with
      | nil => exact absurd rfl hpath
      | cons fr p => exact ⟨fr, p, rfl⟩
    cases t with
    | mk i kids =>
      by_cases hc : (BNode.mk i kids).isContainer
      · cases kids with
        | nil =>
          have hn := next_childless i fr path' hc
          have h1 : innerSteps (BNode.mk i []) = 1 := by
            simp [innerSteps, innerStepsL, hc]
          rw [h1]
          simp [runEmits, hn, visitFull, finEntering, hc, visitFullL]
        | cons c cs =>
          have hsz : ∀ r ∈ c :: cs, sizeOf r ≤ N := by
            intro r hr
            have h1 : sizeOf r < sizeOf (c :: cs) := List.sizeOf_lt_of_mem hr
            have h2 : sizeOf (BNode.mk i (c :: cs))
                = 1 + sizeOf i + sizeOf (c :: cs) := by simp
            omega
          have hprop : ∀ r ∈ c :: cs, ∀ (q : List WFrame), q ≠ [] →
              runEmits (innerSteps r)
                { current := some ⟨r, q⟩, rootSet := true, entering := true }
                = some ((visitFull r).drop 1,
                    { current := some ⟨r, q⟩, rootSet := true,
                      entering := finEntering r }) :=
            fun r hr q hq => ih r (hsz r hr) q hq
          have hstep := next_descend i c cs (fr :: path') hc
          have hrun1 : runEmits 1
              { current := some ⟨BNode.mk i (c :: cs), fr :: path'⟩,
                rootSet := true, entering := true }
              = some ([(c, true)],
                  { current := some ⟨c, ⟨i, [], cs⟩ :: fr :: path'⟩,
                    rootSet := true, entering := true }) := by
            simp [runEmits, hstep]
          obtain ⟨f', lrev', hrun2, hlist⟩ :=
            walkChildren cs c i [] (fr :: path') hprop
          have hP : BNode.mk i (lrev'.reverse ++ f' :: [])
              = BNode.mk i (c :: cs) := by
            have : lrev'.reverse ++ f' :: [] = lrev'.reverse ++ [f'] := rfl
            rw [this, hlist]
            simp
          have hup := next_up_emit (finEntering f') f' i lrev' fr path'
            (by simp [finEntering])
          have hrun3 : runEmits 1
              { current := some ⟨f', ⟨i, lrev', []⟩ :: fr :: path'⟩,
                rootSet := true, entering := finEntering f' }
              = some ([(BNode.mk i (c :: cs), false)],
                  { current := some ⟨BNode.mk i (c :: cs), fr :: path'⟩,
                    rootSet := true, entering := false }) := by
            rw [← hP]
            simp [runEmits, hup]
          have hcomp1 := runEmits_add 1 (innerSteps c + innerStepsL cs)
            _ _ _ _ _ hrun1 hrun2
          have hcomp2 := runEmits_add (1 + (innerSteps c + innerStepsL cs)) 1
            _ _ _ _ _ hcomp1 hrun3
          have harith : innerSteps (BNode.mk i (c :: cs))
              = 1 + (innerSteps c + innerStepsL cs) + 1 := by
            simp [innerSteps, innerStepsL, hc]
            omega
          have hev : (visitFull (BNode.mk i (c :: cs))).drop 1
              = ([(c, true)] ++ ((visitFull c).drop 1 ++ visitFullL cs))
                  ++ [(BNode.mk i (c :: cs), false)] := by
            conv_lhs => rw [visitFull]
            simp only [hc, if_true, List.drop_succ_cons, List.drop_zero]
            conv_lhs => rw [visitFullL, visitFull_cons c]
            simp
          have hfin : finEntering (BNode.mk i (c :: cs)) = false := by
            simp [finEntering, hc]
          rw [harith, hev, hfin]
          exact hcomp2
      · have hcf : (BNode.mk i kids).isContainer = false := by
          simpa using hc
        have h0 : innerSteps (BNode.mk i kids) = 0 := by
          simp [innerSteps, hcf]
        rw [h0]
        simp [runEmits, visitFull, hcf, finEntering]

/-- C7: driven from the root of any tree, the walker's step function
yields, for every container it visits, an entering visit, then the visits
of all its children in order, then an exiting visit after the last child;
for every leaf exactly one entering visit and no exiting visit; and the
traversal terminates when control returns to the start node — the walker
reports nil exactly where the root's own exiting visit would occur, so the
collected trace equals `specEvents` (the spec-side traversal) at every
sufficient fuel: adding fuel yields no further visit. -/
theorem c7_walker_traversal :
    ∀ (t : BNode) (k : Nat),
      walkerTrace t ((specEvents t).length + k) = specEvents t := by
  intro t k
  cases t with
  | mk i kids =>
    by_cases hc : (BNode.mk i kids).isContainer
    · cases kids with
      | nil =>
        have hlen : (specEvents (BNode.mk i [])).length = 1 := by
          simp [specEvents, hc, visitFullL]
        have h1 : runEmits 1 (NewNodeWalker (BNode.mk i []))
            = some ([(BNode.mk i [], true)],
                { current := some ⟨BNode.mk i [], []⟩, rootSet := true,
                  entering := true }) := by
          simp [runEmits, next_start]
        have hrun := runEmits_walkerRun 1 _ _ _ h1 k
        have hstop := walkerRun_stop _ (next_root_childless i hc) k
        rw [hlen]
        show walkerRun (1 + k) (NewNodeWalker (BNode.mk i []))
          = specEvents (BNode.mk i [])
        rw [hrun, hstop]
        simp [specEvents, hc, visitFullL]
      | cons c cs =>
        have hprop : ∀ r ∈ c :: cs, ∀ (q : List WFrame), q ≠ [] →
            runEmits (innerSteps r)
              { current := some ⟨r, q⟩, rootSet := true, entering := true }
              = some ((visitFull r).drop 1,
                  { current := some ⟨r, q⟩, rootSet := true,
                    entering := finEntering r }) := by
          intro r hr q hq
          refine walkSubtree (sizeOf r) r (Nat.le_refl _) q hq
        have h1 : runEmits 1 (NewNodeWalker (BNode.mk i (c :: cs)))
            = some ([(BNode.mk i (c :: cs), true)],
                { current := some ⟨BNode.mk i (c :: cs), []⟩, rootSet := true,
                  entering := true }) := by
          simp [runEmits, next_start]
        have hstep := next_descend i c cs [] hc
        have h2 : runEmits 1
            { current := some ⟨BNode.mk i (c :: cs), []⟩, rootSet := true,
              entering := true }
            = some ([(c, true)],
                { current := some ⟨c, ⟨i, [], cs⟩ :: []⟩, rootSet := true,
                  entering := true }) := by
          simp [runEmits, hstep]
        obtain ⟨f', lrev', hrun2, hlist⟩ := walkChildren cs c i [] [] hprop
        have hcomp1 := runEmits_add 1 1 _ _ _ _ _ h1 h2
        have hcomp2 := runEmits_add (1 + 1) (innerSteps c + innerStepsL cs)
          _ _ _ _ _ hcomp1 hrun2
        have hstop := walkerRun_stop
          { current := some ⟨f', [⟨i, lrev', []⟩]⟩, rootSet := true,
            entering := finEntering f' }
          (next_up_stop (finEntering f') f' i lrev' (by simp [finEntering])) k
        have hrun := runEmits_walkerRun (1 + 1 + (innerSteps c + innerStepsL cs))
          _ _ _ hcomp2 k
        have hlen : (specEvents (BNode.mk i (c :: cs))).length
            = 1 + 1 + (innerSteps c + innerStepsL cs) := by
          simp [specEvents, hc, visitFullL, visitFull_length c,
            visitFullL_length cs]
          omega
        have hev : specEvents (BNode.mk i (c :: cs))
            = ([(BNode.mk i (c :: cs), true)] ++ [(c, true)])
                ++ ((visitFull c).drop 1 ++ visitFullL cs) := by
          conv_lhs => rw [specEvents]
          simp only [hc, if_true]
          show (BNode.mk i (c :: cs), true) :: visitFullL (c :: cs) = _
          conv_lhs => rw [visitFullL, visitFull_cons c]
          simp
        rw [hlen]
        show walkerRun (1 + 1 + (innerSteps c + innerStepsL cs) + k)
          (NewNodeWalker (BNode.mk i (c :: cs)))
          = specEvents (BNode.mk i (c :: cs))
        rw [hrun, hstop, hev]
        simp
    · have hcf : (BNode.mk i kids).isContainer = false := by simpa using hc
      have hlen : (specEvents (BNode.mk i kids)).length = 1 := by
        simp [specEvents, hcf]
      have h1 : runEmits 1 (NewNodeWalker (BNode.mk i kids))
          = some ([(BNode.mk i kids, true)],
              { current := some ⟨BNode.mk i kids, []⟩, rootSet := true,
                entering := true }) := by
        simp [runEmits, next_start]
      have hrun := runEmits_walkerRun 1 _ _ _ h1 k
      have hstop := walkerRun_stop _
        (next_root_leaf (BNode.mk i kids) true (by simp [hcf])) k
      rw [hlen]
      show walkerRun (1 + k) (NewNodeWalker (BNode.mk i kids))
        = specEvents (BNode.mk i kids)
      rw [hrun, hstop]
      simp [specEvents, hcf]

/-! ## Helper lemmas: block-parser invariant (claim C9) -/

theorem parserInv_congr (s s' : PState) (h : treeLogEq s s') :
    parserInv s' = parserInv s := by
  obtain ⟨h1, h2, h3, h4⟩ := h
  unfold parserInv
  rw [h1, h2, h3, h4]

theorem closedForest_congr (s s' : PState) (h : treeLogEq s s') :
    closedForest s' = closedForest s := by
  obtain ⟨h1, h2, h3, h4⟩ := h
  unfold closedForest
  rw [h2, h3]

theorem closedPres_refl (s : PState) : closedPres s s := by
  intro t ht
  exact Or.inl ht

theorem closedPres_of_treeLogEq (s s' : PState) (h : treeLogEq s s') :
    closedPres s s' := by
  intro t ht
  rw [closedForest_congr s s' h]
  exact Or.inl ht

theorem setBlankRoot_idem (t : BNode) :
    setBlankRoot (setBlankRoot t) = setBlankRoot t := by
  cases t with
  | mk i kids => rfl

theorem closedPres_trans (s1 s2 s3 : PState)
    (h12 : closedPres s1 s2) (h23 : closedPres s2 s3) :
    closedPres s1 s3 := by
  intro t ht
  rcases h12 t ht with h | h
  · exact h23 t h
  · rcases h23 _ h with h' | h'
    · exact Or.inr h'
    · rw [setBlankRoot_idem] at h'
      exact Or.inr h'

theorem allClosedForest_append (l1 l2 : List BNode) :
    allClosedForest (l1 ++ l2) = (allClosedForest l1 && allClosedForest l2) := by
  induction l1 with
  | nil => simp [allClosedForest]
  | cons t ts ih =>
    simp only [List.cons_append, allClosedForest, List.append_eq, ih,
      Bool.and_assoc]

theorem subtreesIn_append (l1 l2 : List BNode) :
    subtreesIn (l1 ++ l2) = subtreesIn l1 ++ subtreesIn l2 := by
  induction l1 with
  | nil => simp [subtreesIn]
  | cons t ts ih =>
    simp only [List.cons_append, subtreesIn, List.append_eq, ih,
      List.append_assoc]

theorem findNextNonspace_treeLogEq (s : PState) :
    treeLogEq s (findNextNonspace s) :=
  ⟨rfl, rfl, rfl, rfl⟩

theorem advanceNextNonspace_treeLogEq (s : PState) :
    treeLogEq s (advanceNextNonspace s) :=
  ⟨rfl, rfl, rfl, rfl⟩

theorem advanceOffset_treeLogEq (s : PState) (c : Nat) (b : Bool)
    (s' : PState) (h : advanceOffset s c b = some s') : treeLogEq s s' := by
  unfold advanceOffset at h
  rcases hl : aoLoop s.currentLine s.column b c s.offset c 0 0 with _ | p
  · rw [hl] at h
    exact Option.noConfusion h
  · rw [hl] at h
    cases h
    exact ⟨rfl, rfl, rfl, rfl⟩

theorem blockContinue_treeLogEq (t : NodeType) (s : PState)
    (st : ContinueStatus) (s' : PState)
    (h : blockContinue t s = some (st, s')) : treeLogEq s s' := by
  cases t <;> simp only [blockContinue] at h
  case Document => cases h; exact ⟨rfl, rfl, rfl, rfl⟩
  case Header => cases h; exact ⟨rfl, rfl, rfl, rfl⟩
  case HorizontalRule => cases h; exact ⟨rfl, rfl, rfl, rfl⟩
  case Paragraph =>
    split at h <;> (cases h; exact ⟨rfl, rfl, rfl, rfl⟩)
  case BlockQuote =>
    split at h
    · rcases ha : advanceOffset (advanceNextNonspace s) 1 false with _ | s1
      · rw [ha] at h
        exact Option.noConfusion h
      · rw [ha] at h
        dsimp only at h
        have e1 := advanceOffset_treeLogEq (advanceNextNonspace s) 1 false s1 ha
        by_cases hsp : peekLine s1.currentLine s1.offset = byteSpace
        · rw [if_pos hsp] at h
          simp only [Option.some.injEq, Prod.mk.injEq] at h
          obtain ⟨_, h2⟩ := h
          subst h2
          exact ⟨e1.1, e1.2.1, e1.2.2.1, e1.2.2.2⟩
        · rw [if_neg hsp] at h
          simp only [Option.some.injEq, Prod.mk.injEq] at h
          obtain ⟨_, h2⟩ := h
          subst h2
          exact ⟨e1.1, e1.2.1, e1.2.2.1, e1.2.2.2⟩
    · simp only [Option.some.injEq, Prod.mk.injEq] at h
      obtain ⟨_, h2⟩ := h
      subst h2
      exact ⟨rfl, rfl, rfl, rfl⟩
  all_goals (cases h; exact ⟨rfl, rfl, rfl, rfl⟩)

theorem descendBroken_treeLogEq (ct : NodeType) :
    ∀ (fuel : Nat) (s : PState) (s' : PState) (c : Bool),
      descendBroken ct fuel s = some (s', c) → treeLogEq s s' := by
  intro fuel
  induction fuel with
  | zero => intro s s' c h; exact Option.noConfusion h
  | succ n ih =>
    intro s s' c h
    simp only [descendBroken] at h
    rcases hc : blockContinue ct (findNextNonspace s) with _ | p
    · rw [hc] at h
      exact Option.noConfusion h
    · rw [hc] at h
      obtain ⟨st, s1⟩ := p
      have e0 := findNextNonspace_treeLogEq s
      have e1 := blockContinue_treeLogEq ct (findNextNonspace s) st s1 hc
      have e01 : treeLogEq s s1 :=
        ⟨e1.1.trans e0.1, e1.2.1.trans e0.2.1, e1.2.2.1.trans e0.2.2.1,
         e1.2.2.2.trans e0.2.2.2⟩
      cases st with
      | Matched =>
        have e2 := ih s1 s' c h
        exact ⟨e2.1.trans e01.1, e2.2.1.trans e01.2.1,
               e2.2.2.1.trans e01.2.2.1, e2.2.2.2.trans e01.2.2.2⟩
      | NotMatched =>
        simp only [Option.some.injEq, Prod.mk.injEq] at h
        obtain ⟨h1, _⟩ := h
        subst h1
        exact e01
      | Completed =>
        simp only [Option.some.injEq, Prod.mk.injEq] at h
        obtain ⟨h1, _⟩ := h
        subst h1
        exact e01

theorem descendLoop_treeLogEq (s : PState) (fuel : Nat) (s' : PState)
    (c : Bool) (h : descendLoop s fuel = some (s', c)) : treeLogEq s s' := by
  simp only [descendLoop] at h
  rcases hd : docLastChild s with _ | i
  · rw [hd] at h
    simp only [Option.some.injEq, Prod.mk.injEq] at h
    obtain ⟨h1, _⟩ := h
    subst h1
    exact ⟨rfl, rfl, rfl, rfl⟩
  · rw [hd] at h
    by_cases ho : i.openFlag = true
    · simp only [ho, if_true] at h
      exact descendBroken_treeLogEq i.typ fuel s s' c h
    · have ho' : i.openFlag = false := by simpa using ho
      simp only [ho', Bool.false_eq_true, if_false, Option.some.injEq,
        Prod.mk.injEq] at h
      obtain ⟨h1, _⟩ := h
      subst h1
      exact ⟨rfl, rfl, rfl, rfl⟩

theorem parserInv_iff (s : PState) : parserInv s = true ↔
    (s.tipInfo.openFlag = true ∧
     s.ancs.all (fun a => a.1.openFlag) = true ∧
     allClosedForest s.tipKids = true ∧
     s.ancs.all (fun a => allClosedForest a.2) = true ∧
     s.log.all eventOk = true) := by
  simp [parserInv, Bool.and_eq_true, and_assoc]

theorem allClosedTree_setBlankRoot (t : BNode) :
    allClosedTree (setBlankRoot t) = allClosedTree t := by
  cases t with
  | mk i kids => rfl

theorem subtreesOf_setBlankRoot (i : NodeInfo) (kids : List BNode) :
    subtreesOf (setBlankRoot (BNode.mk i kids)) =
      setBlankRoot (BNode.mk i kids) :: subtreesIn kids := by
  rfl

theorem finalizeTip_pres (s : PState) (ln : Nat) (s' : PState)
    (hInv : parserInv s = true) (h : finalizeTip s ln = some s') :
    parserInv s' = true ∧ closedPres s s' := by
  unfold finalizeTip at h
  rcases ha : s.ancs with _ | ⟨⟨pInfo, pKids⟩, rest⟩
  · rw [ha] at h
    exact Option.noConfusion h
  · rw [ha] at h
    cases h
    rw [parserInv_iff] at hInv
    obtain ⟨h1, h2, h3, h4, h5⟩ := hInv
    rw [ha] at h2 h4
    simp only [List.all_cons, Bool.and_eq_true] at h2 h4
    constructor
    · rw [parserInv_iff]
      refine ⟨h2.1, h2.2, ?_, h4.2, ?_⟩
      · rw [allClosedForest_append]
        simp only [Bool.and_eq_true]
        refine ⟨h4.1, ?_⟩
        simp [allClosedForest, allClosedTree, closeNodeInfo, h3]
      · simp [List.all_append, eventOk, h5, h1]
    · intro t ht
      left
      simp only [closedForest, ha, List.flatMap_cons, subtreesIn_append,
        List.mem_append] at ht ⊢
      rcases ht with ht | ht | ht
      · left
        right
        simp only [subtreesIn, subtreesOf, List.append_nil, List.mem_cons]
        right
        exact ht
      · left
        left
        exact ht
      · right
        exact ht

theorem addLine_pres (s : PState) (hInv : parserInv s = true) :
    parserInv (addLine s) = true ∧ closedPres s (addLine s) := by
  rw [parserInv_iff] at hInv
  obtain ⟨h1, h2, h3, h4, h5⟩ := hInv
  constructor
  · rw [parserInv_iff]
    refine ⟨h1, h2, h3, h4, ?_⟩
    simp [addLine, List.all_append, eventOk, h5, h1]
  · intro t ht
    exact Or.inl ht

theorem addChildLoop_pres (t : NodeType) :
    ∀ (fuel : Nat) (s : PState) (s' : PState),
      parserInv s = true → addChildLoop t fuel s = some s' →
      parserInv s' = true ∧ closedPres s s' := by
  intro fuel
  induction fuel with
  | zero =>
    intro s s' hInv h
    unfold addChildLoop at h
    split at h
    · cases h
      exact ⟨hInv, closedPres_refl s⟩
    · exact Option.noConfusion h
  | succ f ih =>
    intro s s' hInv h
    unfold addChildLoop at h
    split at h
    · cases h
      exact ⟨hInv, closedPres_refl s⟩
    · rcases hf : finalizeTip s (s.lineNumber - 1) with _ | s1
      · rw [hf] at h
        exact Option.noConfusion h
      · rw [hf] at h
        obtain ⟨hI1, hP1⟩ := finalizeTip_pres s (s.lineNumber - 1) s1 hInv hf
        obtain ⟨hI2, hP2⟩ := ih s1 s' hI1 h
        exact ⟨hI2, closedPres_trans s s1 s' hP1 hP2⟩

theorem addChild_pres (s : PState) (t : NodeType) (off : Nat) (s' : PState)
    (hInv : parserInv s = true) (h : addChild s t off = some s') :
    parserInv s' = true ∧ closedPres s s' := by
  unfold addChild at h
  rcases hl : addChildLoop t (s.ancs.length + 1) s with _ | s1
  · rw [hl] at h
    exact Option.noConfusion h
  · rw [hl] at h
    cases h
    obtain ⟨hI1, hP1⟩ := addChildLoop_pres t (s.ancs.length + 1) s s1 hInv hl
    rw [parserInv_iff] at hI1
    obtain ⟨h1, h2, h3, h4, h5⟩ := hI1
    constructor
    · rw [parserInv_iff]
      refine ⟨rfl, ?_, rfl, ?_, h5⟩
      · simp only [List.all_cons, Bool.and_eq_true]
        exact ⟨h1, h2⟩
      · simp only [List.all_cons, Bool.and_eq_true]
        exact ⟨h3, h4⟩
    · refine closedPres_trans s s1 _ hP1 ?_
      intro u hu
      left
      simp only [closedForest, List.flatMap_cons, subtreesIn_append,
        List.mem_append, List.nil_append] at hu ⊢
      rcases hu with hu | hu
      · left
        exact hu
      · right
        exact hu

theorem cubLoop_pres :
    ∀ (fuel : Nat) (s : PState) (s' : PState),
      parserInv s = true → cubLoop fuel s = some s' →
      parserInv s' = true ∧ closedPres s s' := by
  intro fuel
  induction fuel with
  | zero =>
    intro s s' hInv h
    unfold cubLoop at h
    split at h
    · cases h
      exact ⟨hInv, closedPres_refl s⟩
    · exact Option.noConfusion h
  | succ f ih =>
    intro s s' hInv h
    unfold cubLoop at h
    split at h
    · cases h
      exact ⟨hInv, closedPres_refl s⟩
    · rcases hf : finalizeTip s (s.lineNumber - 1) with _ | s1
      · rw [hf] at h
        exact Option.noConfusion h
      · rw [hf] at h
        obtain ⟨hI1, hP1⟩ := finalizeTip_pres s (s.lineNumber - 1) s1 hInv hf
        obtain ⟨hI2, hP2⟩ := ih s1 s' hI1 h
        exact ⟨hI2, closedPres_trans s s1 s' hP1 hP2⟩

theorem closeUnmatchedBlocks_pres (s : PState) (s' : PState)
    (hInv : parserInv s = true) (h : closeUnmatchedBlocks s = some s') :
    parserInv s' = true ∧ closedPres s s' := by
  unfold closeUnmatchedBlocks at h
  split at h
  · cases h
    exact ⟨hInv, closedPres_refl s⟩
  · rcases hc : cubLoop (s.ancs.length + 1) s with _ | s1
    · rw [hc] at h
      exact Option.noConfusion h
    · rw [hc] at h
      cases h
      obtain ⟨hI1, hP1⟩ := cubLoop_pres (s.ancs.length + 1) s s1 hInv hc
      constructor
      · rw [parserInv_iff] at hI1 ⊢
        exact hI1
      · refine closedPres_trans s s1 _ hP1 ?_
        intro u hu
        left
        exact hu


theorem pres_of_treeLogEq (s s' : PState) (h : treeLogEq s s')
    (hInv : parserInv s = true) :
    parserInv s' = true ∧ closedPres s s' :=
  ⟨by rw [parserInv_congr s s' h]; exact hInv, closedPres_of_treeLogEq s s' h⟩

theorem flatMap_snd_map_blank (b : Bool) (l : List (NodeInfo × List BNode)) :
    (l.map (fun a => ({ a.1 with lastLineBlank := b }, a.2))).flatMap
        (fun a => a.2) =
      l.flatMap (fun a => a.2) := by
  induction l with
  | nil => rfl
  | cons x xs ih => simp [List.flatMap_cons, ih]

theorem all_fst_open_map_blank (b : Bool) (l : List (NodeInfo × List BNode)) :
    (l.map (fun a => ({ a.1 with lastLineBlank := b }, a.2))).all
        (fun a => a.1.openFlag) =
      l.all (fun a => a.1.openFlag) := by
  induction l with
  | nil => rfl
  | cons x xs ih => simp [ih]

theorem all_snd_closed_map_blank (b : Bool)
    (l : List (NodeInfo × List BNode)) :
    (l.map (fun a => ({ a.1 with lastLineBlank := b }, a.2))).all
        (fun a => allClosedForest a.2) =
      l.all (fun a => allClosedForest a.2) := by
  induction l with
  | nil => rfl
  | cons x xs ih => simp [ih]

theorem setChainBlank_pres (s : PState) (b : Bool)
    (hInv : parserInv s = true) :
    parserInv (setChainBlank s b) = true ∧ closedPres s (setChainBlank s b) := by
  rw [parserInv_iff] at hInv
  obtain ⟨h1, h2, h3, h4, h5⟩ := hInv
  constructor
  · rw [parserInv_iff]
    refine ⟨h1, ?_, h3, ?_, h5⟩
    · simp only [setChainBlank, all_fst_open_map_blank]
      exact h2
    · simp only [setChainBlank, all_snd_closed_map_blank]
      exact h4
  · intro t ht
    left
    simp only [closedForest, setChainBlank, flatMap_snd_map_blank]
    exact ht

theorem setLastKidBlank_pres (s : PState) (hInv : parserInv s = true) :
    parserInv (setLastKidBlank s) = true ∧ closedPres s (setLastKidBlank s) := by
  rcases List.eq_nil_or_concat s.tipKids with hk | ⟨l', a, hk⟩
  · have hmatch : s.tipKids.dropLast ++ (match s.tipKids.getLast? with
        | some (.mk i c) => [BNode.mk { i with lastLineBlank := true } c]
        | none => []) = s.tipKids := by
      simp [hk]
    have heq : setLastKidBlank s = s := by
      simp only [setLastKidBlank]
      rw [hmatch]
    rw [heq]
    exact ⟨hInv, closedPres_refl s⟩
  · rw [List.concat_eq_append] at hk
    have heq : (setLastKidBlank s).tipKids = l' ++ [setBlankRoot a] := by
      cases a with
      | mk i c =>
        simp [setLastKidBlank, hk, List.dropLast_concat, List.getLast?_concat,
          setBlankRoot]
    rw [parserInv_iff] at hInv
    obtain ⟨h1, h2, h3, h4, h5⟩ := hInv
    constructor
    · rw [parserInv_iff]
      refine ⟨h1, h2, ?_, h4, h5⟩
      rw [heq, allClosedForest_append]
      rw [hk, allClosedForest_append] at h3
      simp only [Bool.and_eq_true] at h3 ⊢
      refine ⟨h3.1, ?_⟩
      have := h3.2
      simp only [allClosedForest, allClosedTree_setBlankRoot,
        Bool.and_eq_true] at this ⊢
      exact this
    · intro t ht
      simp only [closedForest, subtreesIn_append, List.mem_append, hk, heq]
        at ht ⊢
      rcases ht with (ht | ht) | ht
      · exact Or.inl (Or.inl (Or.inl ht))
      · cases a with
        | mk i c =>
          simp only [subtreesIn, subtreesOf, List.append_nil, List.mem_cons]
            at ht
          rcases ht with ht | ht
          · subst ht
            right
            left
            right
            simp only [subtreesIn, subtreesOf_setBlankRoot, List.append_nil,
              List.mem_cons]
            exact Or.inl trivial
          · left
            left
            right
            simp only [subtreesIn, subtreesOf_setBlankRoot, List.append_nil,
              List.mem_cons]
            right
            exact ht
      · exact Or.inl (Or.inr ht)

theorem treeLogEq_trans (s1 s2 s3 : PState) (h12 : treeLogEq s1 s2)
    (h23 : treeLogEq s2 s3) : treeLogEq s1 s3 :=
  ⟨h23.1.trans h12.1, h23.2.1.trans h12.2.1, h23.2.2.1.trans h12.2.2.1,
   h23.2.2.2.trans h12.2.2.2⟩

theorem pres_trans (s1 s2 s3 : PState)
    (h12 : parserInv s2 = true ∧ closedPres s1 s2)
    (h23 : parserInv s3 = true ∧ closedPres s2 s3) :
    parserInv s3 = true ∧ closedPres s1 s3 :=
  ⟨h23.1, closedPres_trans s1 s2 s3 h12.2 h23.2⟩

/-- Overwriting `level` and `content` of the open tip touches no closed
node and no open flag. -/
theorem tipFieldsUpdate_pres (s : PState) (lv : Nat) (ct : List Nat)
    (hInv : parserInv s = true) :
    parserInv { s with tipInfo :=
      { s.tipInfo with level := lv, content := ct } } = true ∧
    closedPres s { s with tipInfo :=
      { s.tipInfo with level := lv, content := ct } } := by
  constructor
  · rw [parserInv_iff] at hInv ⊢
    obtain ⟨h1, h2, h3, h4, h5⟩ := hInv
    exact ⟨h1, h2, h3, h4, h5⟩
  · intro t ht
    exact Or.inl ht

theorem atxHeaderTrigger_pres (s : PState) (st : BlockStatus) (s' : PState)
    (hInv : parserInv s = true) (h : atxHeaderTrigger s = some (st, s')) :
    parserInv s' = true ∧ closedPres s s' := by
  simp only [atxHeaderTrigger] at h
  rcases hm : atxMatch (s.currentLine.drop s.nextNonspace) with _ | mtch
  · rw [hm] at h
    simp only [Option.some.injEq, Prod.mk.injEq] at h
    obtain ⟨_, h2⟩ := h
    subst h2
    exact ⟨hInv, closedPres_refl s⟩
  · rw [hm] at h
    dsimp only at h
    by_cases hind : s.indented = true
    · rw [if_neg (not_not_intro hind)] at h
      simp only [Option.some.injEq, Prod.mk.injEq] at h
      obtain ⟨_, h2⟩ := h
      subst h2
      exact ⟨hInv, closedPres_refl s⟩
    · rw [if_pos hind] at h
      split at h
      · exact Option.noConfusion h
      · rename_i s2 h1
        split at h
        · exact Option.noConfusion h
        · rename_i s3 h2
          split at h
          · exact Option.noConfusion h
          · rename_i s4 h3
            split at h
            · exact Option.noConfusion h
            · rename_i s5 h4
              simp only [Option.some.injEq, Prod.mk.injEq] at h
              obtain ⟨_, h5⟩ := h
              subst h5
              have e1 : treeLogEq s s2 :=
                treeLogEq_trans _ _ _ (advanceNextNonspace_treeLogEq s)
                  (advanceOffset_treeLogEq _ _ _ _ h1)
              have P1 := pres_of_treeLogEq _ _ e1 hInv
              have P2 := closeUnmatchedBlocks_pres s2 s3 P1.1 h2
              have P3 := addChild_pres s3 .Header s3.nextNonspace s4 P2.1 h3
              have P4 := tipFieldsUpdate_pres s4
                (bytesTrim [byteSpace, byteTab, byteNL, byteCR] mtch).length
                (reRightStrip (reLeftStrip (s4.currentLine.drop s4.offset)))
                P3.1
              have P5 := pres_of_treeLogEq _ _
                (advanceOffset_treeLogEq _ _ _ _ h4) P4.1
              exact pres_trans _ _ _
                (pres_trans _ _ _ (pres_trans _ _ _ (pres_trans _ _ _ P1 P2)
                  P3) P4) P5

theorem hruleTrigger_pres (s : PState) (st : BlockStatus) (s' : PState)
    (hInv : parserInv s = true) (h : hruleTrigger s = some (st, s')) :
    parserInv s' = true ∧ closedPres s s' := by
  simp only [hruleTrigger] at h
  by_cases hcond : hruleFind (s.currentLine.drop s.nextNonspace) = true
      ∧ ¬ s.indented = true
  · rw [if_pos hcond] at h
    split at h
    · exact Option.noConfusion h
    · rename_i s2 h1
      split at h
      · exact Option.noConfusion h
      · rename_i s3 h2
        split at h
        · exact Option.noConfusion h
        · rename_i s4 h3
          simp only [Option.some.injEq, Prod.mk.injEq] at h
          obtain ⟨_, h4⟩ := h
          subst h4
          have P1 := closeUnmatchedBlocks_pres s s2 hInv h1
          have P2 := addChild_pres s2 .HorizontalRule s2.nextNonspace s3 P1.1 h2
          have P3 := pres_of_treeLogEq _ _
            (advanceOffset_treeLogEq _ _ _ _ h3) P2.1
          exact pres_trans _ _ _ (pres_trans _ _ _ P1 P2) P3
  · rw [if_neg hcond] at h
    simp only [Option.some.injEq, Prod.mk.injEq] at h
    obtain ⟨_, h2⟩ := h
    subst h2
    exact ⟨hInv, closedPres_refl s⟩

theorem blockquoteTrigger_pres (s : PState) (st : BlockStatus) (s' : PState)
    (hInv : parserInv s = true) (h : blockquoteTrigger s = some (st, s')) :
    parserInv s' = true ∧ closedPres s s' := by
  simp only [blockquoteTrigger] at h
  by_cases hcond : ¬ s.indented = true
      ∧ peekLine s.currentLine s.nextNonspace = byteGt
  · rw [if_pos hcond] at h
    split at h
    · exact Option.noConfusion h
    · rename_i s2 h1
      split at h
      · exact Option.noConfusion h
      · rename_i s3 h2
        split at h
        · exact Option.noConfusion h
        · rename_i s4 h3
          split at h
          · exact Option.noConfusion h
          · rename_i s5 h4
            simp only [Option.some.injEq, Prod.mk.injEq] at h
            obtain ⟨_, h5⟩ := h
            subst h5
            have e1 : treeLogEq s s2 :=
              treeLogEq_trans _ _ _ (advanceNextNonspace_treeLogEq s)
                (advanceOffset_treeLogEq _ _ _ _ h1)
            have P1 := pres_of_treeLogEq _ _ e1 hInv
            have e2 : treeLogEq s2 s3 := by
              revert h2
              by_cases hpk : peekLine s2.currentLine s2.offset = byteSpace
              · rw [if_pos hpk]
                intro h2
                exact advanceOffset_treeLogEq _ _ _ _ h2
              · rw [if_neg hpk]
                intro h2
                obtain h2' := Option.some.inj h2
                subst h2'
                exact ⟨rfl, rfl, rfl, rfl⟩
            have P2 := pres_of_treeLogEq _ _ e2 P1.1
            have P3 := closeUnmatchedBlocks_pres s3 s4 P2.1 h3
            have P4 := addChild_pres s4 .BlockQuote s4.nextNonspace s5 P3.1 h4
            exact pres_trans _ _ _
              (pres_trans _ _ _ (pres_trans _ _ _ P1 P2) P3) P4
  · rw [if_neg hcond] at h
    simp only [Option.some.injEq, Prod.mk.injEq] at h
    obtain ⟨_, h2⟩ := h
    subst h2
    exact ⟨hInv, closedPres_refl s⟩

theorem triggerLoop_pres :
    ∀ (fuel : Nat) (s : PState) (ml : Bool) (s' : PState),
      parserInv s = true → triggerLoop fuel s ml = some s' →
      parserInv s' = true ∧ closedPres s s' := by
  intro fuel
  induction fuel with
  | zero => intro s ml s' _ h; exact Option.noConfusion h
  | succ n ih =>
    intro s ml s' hInv h
    simp only [triggerLoop] at h
    by_cases hml : ml = true
    · rw [if_pos hml] at h
      obtain h' := Option.some.inj h
      subst h'
      exact ⟨hInv, closedPres_refl s⟩
    · rw [if_neg hml] at h
      have e0 := findNextNonspace_treeLogEq s
      have P0 := pres_of_treeLogEq s (findNextNonspace s) e0 hInv
      rcases ha : atxHeaderTrigger (findNextNonspace s) with _ | ⟨st1, s2⟩
      · rw [ha] at h
        exact Option.noConfusion h
      · rw [ha] at h
        dsimp only at h
        have PA := atxHeaderTrigger_pres (findNextNonspace s) st1 s2 P0.1 ha
        by_cases hst1 : st1 = BlockStatus.NoMatch
        · subst hst1
          rw [if_neg (by simp)] at h
          rcases hr : hruleTrigger (findNextNonspace s) with _ | ⟨st2, s3⟩
          · rw [hr] at h
            exact Option.noConfusion h
          · rw [hr] at h
            dsimp only at h
            have PR := hruleTrigger_pres (findNextNonspace s) st2 s3 P0.1 hr
            by_cases hst2 : st2 = BlockStatus.NoMatch
            · subst hst2
              rw [if_neg (by simp)] at h
              rcases hb : blockquoteTrigger (findNextNonspace s) with _ | ⟨st3, s4⟩
              · rw [hb] at h
                exact Option.noConfusion h
              · rw [hb] at h
                dsimp only at h
                have PB := blockquoteTrigger_pres (findNextNonspace s) st3 s4
                  P0.1 hb
                by_cases hst3 : st3 = BlockStatus.NoMatch
                · subst hst3
                  rw [if_neg (by simp)] at h
                  obtain h' := Option.some.inj h
                  subst h'
                  exact pres_of_treeLogEq _ _
                    (treeLogEq_trans _ _ _ e0
                      (advanceNextNonspace_treeLogEq (findNextNonspace s)))
                    hInv
                · rw [if_pos hst3] at h
                  have P4 := ih s4 _ s' PB.1 h
                  exact pres_trans _ _ _
                    (pres_trans _ _ _ P0 PB) P4
            · rw [if_pos hst2] at h
              have P3 := ih s3 _ s' PR.1 h
              exact pres_trans _ _ _ (pres_trans _ _ _ P0 PR) P3
        · rw [if_pos hst1] at h
          have P2 := ih s2 _ s' PA.1 h
          exact pres_trans _ _ _ (pres_trans _ _ _ P0 PA) P2

theorem incorporateTail_pres (s s' : PState) (hInv : parserInv s = true)
    (h : incorporateTail s = some s') :
    parserInv s' = true ∧ closedPres s s' := by
  simp only [incorporateTail] at h
  by_cases h0 : ¬ s.allClosed = true ∧ ¬ s.blank = true
      ∧ s.tipInfo.typ = NodeType.Paragraph
  · rw [if_pos h0] at h
    obtain h' := Option.some.inj h
    subst h'
    exact addLine_pres s hInv
  · rw [if_neg h0] at h
    rcases hc : closeUnmatchedBlocks s with _ | s1
    · rw [hc] at h
      exact Option.noConfusion h
    · rw [hc] at h
      dsimp only at h
      have P1 := closeUnmatchedBlocks_pres s s1 hInv hc
      by_cases hb : (s1.blank && !s1.tipKids.isEmpty) = true
      · rw [if_pos hb] at h
        have P2 := setLastKidBlank_pres s1 P1.1
        have P3 := setChainBlank_pres (setLastKidBlank s1)
          (setLastKidBlank s1).blank P2.1
        have P123 := pres_trans _ _ _ (pres_trans _ _ _ P1 P2) P3
        by_cases hacc : blockAcceptsLines
            (setChainBlank (setLastKidBlank s1)
              (setLastKidBlank s1).blank).tipInfo.typ = true
        · rw [if_pos hacc] at h
          obtain h' := Option.some.inj h
          subst h'
          exact pres_trans _ _ _ P123 (addLine_pres _ P123.1)
        · rw [if_neg hacc] at h
          by_cases hoff : (setChainBlank (setLastKidBlank s1)
                (setLastKidBlank s1).blank).offset
              < (setChainBlank (setLastKidBlank s1)
                (setLastKidBlank s1).blank).currentLine.length
              ∧ ¬ (setChainBlank (setLastKidBlank s1)
                (setLastKidBlank s1).blank).blank = true
          · rw [if_pos hoff] at h
            rcases hadd : addChild (setChainBlank (setLastKidBlank s1)
                (setLastKidBlank s1).blank) .Paragraph
                (setChainBlank (setLastKidBlank s1)
                  (setLastKidBlank s1).blank).offset with _ | s4
            · rw [hadd] at h
              exact Option.noConfusion h
            · rw [hadd] at h
              obtain h' := Option.some.inj h
              subst h'
              have P4 := addChild_pres _ _ _ _ P123.1 hadd
              have P5 := pres_of_treeLogEq _ _
                (advanceNextNonspace_treeLogEq s4) P4.1
              have P6 := pres_trans _ _ _ P5
                (addLine_pres (advanceNextNonspace s4) P5.1)
              exact pres_trans _ _ _ P123 (pres_trans _ _ _ P4 P6)
          · rw [if_neg hoff] at h
            obtain h' := Option.some.inj h
            subst h'
            exact P123
      · rw [if_neg hb] at h
        have P3 := setChainBlank_pres s1 s1.blank P1.1
        have P123 := pres_trans _ _ _ P1 P3
        by_cases hacc : blockAcceptsLines
            (setChainBlank s1 s1.blank).tipInfo.typ = true
        · rw [if_pos hacc] at h
          obtain h' := Option.some.inj h
          subst h'
          exact pres_trans _ _ _ P123 (addLine_pres _ P123.1)
        · rw [if_neg hacc] at h
          by_cases hoff : (setChainBlank s1 s1.blank).offset
              < (setChainBlank s1 s1.blank).currentLine.length
              ∧ ¬ (setChainBlank s1 s1.blank).blank = true
          · rw [if_pos hoff] at h
            rcases hadd : addChild (setChainBlank s1 s1.blank) .Paragraph
                (setChainBlank s1 s1.blank).offset with _ | s4
            · rw [hadd] at h
              exact Option.noConfusion h
            · rw [hadd] at h
              obtain h' := Option.some.inj h
              subst h'
              have P4 := addChild_pres _ _ _ _ P123.1 hadd
              have P5 := pres_of_treeLogEq _ _
                (advanceNextNonspace_treeLogEq s4) P4.1
              have P6 := pres_trans _ _ _ P5
                (addLine_pres (advanceNextNonspace s4) P5.1)
              exact pres_trans _ _ _ P123 (pres_trans _ _ _ P4 P6)
          · rw [if_neg hoff] at h
            obtain h' := Option.some.inj h
            subst h'
            exact P123

theorem incorporateLine_pres (s : PState) (ln : List Nat) (s' : PState)
    (hInv : parserInv s = true) (h : incorporateLine s ln = some s') :
    parserInv s' = true ∧ closedPres s s' := by
  simp only [incorporateLine] at h
  have E0 : treeLogEq s { s with offset := 0, lineNumber := s.lineNumber + 1, currentLine := ln } := ⟨rfl, rfl, rfl, rfl⟩
  have P0 := pres_of_treeLogEq _ _ E0 hInv
  split at h
  · exact Option.noConfusion h
  · rename_i s1 hd
    obtain h' := Option.some.inj h
    subst h'
    have P1 := pres_trans _ _ _ P0
      (pres_of_treeLogEq _ _ (descendLoop_treeLogEq _ _ _ _ hd) P0.1)
    exact pres_trans _ _ _ P1
      (pres_of_treeLogEq s1 { s1 with lastLineLength := ln.length } ⟨rfl, rfl, rfl, rfl⟩ P1.1)
  · rename_i s1 hd
    have P1 := pres_trans _ _ _ P0
      (pres_of_treeLogEq _ _ (descendLoop_treeLogEq _ _ _ _ hd) P0.1)
    have P2 := pres_trans _ _ _ P1
      (pres_of_treeLogEq s1 { s1 with allClosed := decide (0 = s1.ancs.length), lastMatchedDepth := 0 } ⟨rfl, rfl, rfl, rfl⟩ P1.1)
    split at h
    · exact Option.noConfusion h
    · rename_i s2 htrig
      have P3 := pres_trans _ _ _ P2
        (triggerLoop_pres _ _ _ _ P2.1 htrig)
      split at h
      · exact Option.noConfusion h
      · rename_i s3 htail
        obtain h' := Option.some.inj h
        subst h'
        have P4 := pres_trans _ _ _ P3
          (incorporateTail_pres _ _ P3.1 htail)
        exact pres_trans _ _ _ P4
          (pres_of_treeLogEq s3 { s3 with lastLineLength := ln.length } ⟨rfl, rfl, rfl, rfl⟩ P4.1)

/-- C9: the embedded block parser logs every `addLine` and every `finalize`
with the `open` flag of the node it touched (`PEvent`); `parserInv` states
that every logged event hit an open node, that every node on the open chain
is open, and that everything hanging off the chain is closed, while
`closedPres` states that every closed subtree present before a step is
still present after it, at most with the blank-line marker
(`lastLineBlank`) written on its root — the only write the block parser
ever performs on a closed node, so a closed node's structure, content and
source range never change again, and `finalize` (which logs the flag it
clears) can never hit the same node twice.  The invariant holds initially
and is preserved by every successful `incorporateLine` step. -/
theorem c9_open_blocks_invariant :
    parserInv initialParser = true ∧
    (∀ (s : PState) (ln : List Nat) (s' : PState),
      parserInv s = true → incorporateLine s ln = some s' →
      parserInv s' = true ∧ closedPres s s') :=
  ⟨by rfl, fun s ln s' hInv h => incorporateLine_pres s ln s' hInv h⟩

set_option maxHeartbeats 1600000 in
/-- Witness for C9 at the concrete first step of parsing `para`: the
invariant holds in the resulting state and every closed subtree (none) is
preserved. -/
theorem c9_witness :
    parserInv c5state = true ∧ closedPres initialParser c5state :=
  c9_open_blocks_invariant.2 initialParser (bytesOfString "para") c5state
    (by rfl) (by rfl)
